import Mathlib

/-!
Verification development for the `Pipeline` repository (`src/database/database.py`).

The Python code is shallowly embedded: pandas data frames become `Table`
(an ordered column list plus rows given as association lists), a `NaN`
cell becomes `none`, concrete cell values are modelled as integers
(which is all the claims exercise), and fallible code returns
`Except DbErr`.  The two potentially non-terminating recursions of the
source (`_get_dependencies` and the iterative-join `while` loop of
`_get_coords_impl`) take an explicit fuel parameter whose exhaustion is
reported as `DbErr.fuel`; every other error constructor corresponds to a
Python exception actually raised by the source.
-/

namespace Pipeline

/-- Cells of a data frame; `none` models pandas `NaN`/`None`. -/
abbrev Cell := Option Int

/-- A data-frame row: an association list from column name to cell. -/
abbrev Row := List (String × Cell)

/-- Value of column `c` in row `r`.  A column absent from the row reads as
`NaN`, matching the `NaN` fill pandas performs when frames with different
columns are concatenated. -/
def Row.get (r : Row) (c : String) : Cell := (List.lookup c r).getD none

/-- Restriction of a row to the given columns, in the given order:
the row-wise effect of `df[cols]`. -/
def Row.restrict (r : Row) (cs : List String) : Row :=
  cs.map (fun c => (c, Row.get r c))

/-- A pandas `DataFrame`: ordered column names and a list of rows. -/
structure Table where
  cols : List String
  rows : List Row
deriving DecidableEq

/-- Deduplication keeping the first occurrence, as in
`DataFrame.drop_duplicates` (default `keep="first"`); `seen` accumulates
the elements already emitted. -/
def firstDedupAux {α : Type} [DecidableEq α] (seen : List α) : List α → List α
  | [] => []
  | a :: l => if a ∈ seen then firstDedupAux seen l else a :: firstDedupAux (a :: seen) l

/-- Deduplication keeping the first occurrence of each element. -/
def firstDedup {α : Type} [DecidableEq α] (l : List α) : List α := firstDedupAux [] l

/-- The sub-list of elements having an equal occurrence strictly earlier in
the list: the elements marked `True` by `Series.duplicated()` (default
`keep="first"`). -/
def dupInAux {α : Type} [DecidableEq α] (seen : List α) : List α → List α
  | [] => []
  | a :: l => if a ∈ seen then a :: dupInAux seen l else dupInAux (a :: seen) l

/-- Elements of `l` that duplicate an earlier element. -/
def dupIn {α : Type} [DecidableEq α] (l : List α) : List α := dupInAux [] l

/-- Union of name lists with set semantics (Python `set.union`): elements of
`ys` not already present are appended. -/
def unionL (xs ys : List String) : List String := xs ++ ys.filter (fun y => y ∉ xs)

/-- Column union as performed by `pandas.concat`: columns of `ys` are
appended in order of first appearance. -/
def unionCols (xs : List String) : List String → List String
  | [] => xs
  | c :: cs => unionCols (if c ∈ xs then xs else xs ++ [c]) cs

/-- Lexicographic comparison of group keys (pandas sorts group keys
ascending by default in `groupby`). -/
def keyLe : List Int → List Int → Bool
  | [], _ => true
  | _ :: _, [] => false
  | a :: as, b :: bs => a < b || (a == b && keyLe as bs)

/-- Insertion into a `keyLe`-sorted list. -/
def insertKey (k : List Int) : List (List Int) → List (List Int)
  | [] => [k]
  | x :: xs => if keyLe k x then k :: x :: xs else x :: insertKey k xs

/-- Insertion sort by `keyLe`; models the ascending group order of
`DataFrame.groupby` (default `sort=True`). -/
def sortKeys : List (List Int) → List (List Int)
  | [] => []
  | k :: ks => insertKey k (sortKeys ks)

/-- A value of a selection (filter) dictionary, following the `isinstance`
dispatch of `DatabaseInstance._filter`: a tuple of allowed values, a slice
(start, stop, step), a unary callable predicate, or an exact value compared
with `==`. -/
inductive FilterVal where
  | vals : List Int → FilterVal
  | range : Option Int → Option Int → Option Int → FilterVal
  | pred : (Cell → Bool) → FilterVal
  | exact : Int → FilterVal

/-- A selection dictionary: insertion-ordered column/constraint pairs. -/
abbrev Selection := List (String × FilterVal)

/-- Row-level filter semantics of `DatabaseInstance._filter`.

For a slice the source evaluates `df[s] >= v.start if v.start else True`
(and symmetrically for `stop`): a bound that is Python-falsy — absent or
equal to `0` — is not applied at all.  A provided `step` is ignored
because the source builds `Exception("step not handled")` without raising
it.  Comparisons with a `NaN` cell are false, as in pandas.  One error
path is collapsed: when BOTH bounds are falsy the source's condition
degenerates to the scalar `True & True` and `df.loc[True]` raises; the
embedding instead keeps all rows, so such a slice constrains nothing
here.  No verified conclusion depends on that corner: every theorem about
a run is conditioned on the run returning `ok`. -/
def cellSat (cell : Cell) : FilterVal → Bool
  | .vals l =>
      match cell with
      | some x => decide (x ∈ l)
      | none => false
  | .range start stop _step =>
      (match start with
       | some s =>
           if s = 0 then true
           else match cell with
                | some x => decide (s ≤ x)
                | none => false
       | none => true)
      &&
      (match stop with
       | some e =>
           if e = 0 then true
           else match cell with
                | some x => decide (x < e)
                | none => false
       | none => true)
  | .pred p => p cell
  | .exact v => cell == some v

/-- Keep the rows whose cell in column `s` satisfies `v`. -/
def filterRows (t : Table) (s : String) (v : FilterVal) : Table :=
  { t with rows := t.rows.filter (fun r => cellSat (Row.get r s) v) }

/-- `DatabaseInstance._filter`: fold the selection dictionary over the
frame, applying each entry only when its column is present. -/
def filterT (t : Table) : Selection → Table
  | [] => t
  | (s, v) :: rest => filterT (if s ∈ t.cols then filterRows t s v else t) rest

/-- A coordinate computer (`CoordComputer` dataclass): the coordinate
columns it produces, the columns it requires, and its compute function.
Python sets of names are modelled as lists used with membership semantics.
The Python compute callable also receives the `DatabaseInstance`; none of
the verified claims exercises a compute function that reads it, so the
embedding passes only the parameter frame. -/
structure CoordComputer where
  coords : List String
  dependencies : List String
  compute : Table → Table

/-- An action callback `(db, out_location, coords) -> result`: it receives
the resolved location and the coordinate row (minus the location column)
and either returns a value or raises.  As with compute functions, the
`DatabaseInstance` argument is not exercised by the claims and is omitted. -/
abbrev ActionFn := Cell → Row → Except String Int

/-- A data artifact declaration (`Data` dataclass). -/
structure Data where
  name : String
  dependencies : List String
  get_location : Row → Cell
  actions : List (String × ActionFn)

/-- Error values: each non-`fuel` constructor corresponds to a Python
exception raised by the source (`exc` a plain `Exception` message, `dup`
the duplication error carrying the offending location rows, `excGroup` an
`ExceptionGroup` with its component messages). -/
inductive DbErr where
  | exc : String → DbErr
  | keyError : String → DbErr
  | attrError : String → DbErr
  | dup : Table → DbErr
  | excGroup : String → List String → DbErr
  | fuel : DbErr
deriving DecidableEq

/-- The static declaration registry (`Database` class). `data` is an
insertion-ordered dictionary from name to declaration. -/
structure Database where
  name : String
  coord_computers : List CoordComputer
  data : List (String × Data)

/-- An object that `Database.declare` accepts: Python dispatches on
`isinstance`; anything else raises, which the closed sum type makes
unrepresentable. -/
inductive DbObject where
  | cc : CoordComputer → DbObject
  | dataDecl : Data → DbObject

/-- `Database.declare`: coordinate computers are appended unconditionally;
a `Data` declaration raises when its name is already registered. -/
def Database.declare (db : Database) : DbObject → Except DbErr Database
  | .cc c => .ok { db with coord_computers := db.coord_computers ++ [c] }
  | .dataDecl d =>
      if (List.lookup d.name db.data).isSome then
        .error (.exc ("Data " ++ d.name ++ " already exists"))
      else
        .ok { db with data := db.data ++ [(d.name, d)] }

/-- Sequential declaration of a list of objects, propagating the first
failure (the nested `for` loops of `Database.join`). -/
def declareAll (db : Database) : List DbObject → Except DbErr Database
  | [] => .ok db
  | o :: os =>
      match db.declare o with
      | .error e => .error e
      | .ok db' => declareAll db' os

/-- `Database.join`: build a fresh registry (with a derived name when none
is supplied) and re-declare, for each input registry in order, first its
coordinate computers and then its data declarations. -/
def Database.join (dbs : List Database) (new_name : Option String) : Except DbErr Database :=
  let nm := match new_name with
    | some n => n
    | none => "Joined(" ++ String.intercalate ", " (dbs.map (fun d => d.name)) ++ ")"
  declareAll ⟨nm, [], []⟩
    (dbs.flatMap (fun d => d.coord_computers.map DbObject.cc ++ d.data.map (fun p => DbObject.dataDecl p.2)))

/-- The resolved runtime view (`DatabaseInstance`): the registry, the
coordinate-to-computer index built at instantiation, and the mutable
`continue_on_error` flag (set in `__init__`, toggled by callers). -/
structure DatabaseInstance where
  db : Database
  coords : List (String × CoordComputer)
  continue_on_error : Bool

/-- Insert the coordinates of one computer into the index, raising when a
coordinate already has a computer (inner loop of
`DatabaseInstance.__init__`). -/
def addCoords (cc : CoordComputer) (m : List (String × CoordComputer)) :
    List String → Except DbErr (List (String × CoordComputer))
  | [] => .ok m
  | c :: cs =>
      if (List.lookup c m).isSome then
        .error (.exc ("Coordinate " ++ c ++ " has two computers"))
      else addCoords cc (m ++ [(c, cc)]) cs

/-- Build the coordinate-to-computer index over all declared computers. -/
def buildIndex (m : List (String × CoordComputer)) :
    List CoordComputer → Except DbErr (List (String × CoordComputer))
  | [] => .ok m
  | cc :: ccs =>
      match addCoords cc m cc.coords with
      | .error e => .error e
      | .ok m' => buildIndex m' ccs

/-- `Database.initialize` (named `instantiate` here): builds a
`DatabaseInstance`, raising on any coordinate produced by two computers.
`continue_on_error` starts out `False`. -/
def Database.instantiate (db : Database) : Except DbErr DatabaseInstance :=
  match buildIndex [] db.coord_computers with
  | .error e => .error e
  | .ok m => .ok ⟨db, m, false⟩

/-- The loop body of `DatabaseInstance._get_dependencies`: iterate over
the remaining names, unioning into the accumulator `res` each name and
its recursively computed dependency closure (obtained from `rec`);
`KeyError` when no computer produces a name. -/
def getDepsList (rec : List String → Except DbErr (List String)) (inst : DatabaseInstance) :
    List String → List String → Except DbErr (List String)
  | [], res => .ok res
  | n :: ns, res =>
      match List.lookup n inst.coords with
      | none => .error (.keyError n)
      | some cc =>
          match rec cc.dependencies with
          | .error e => .error e
          | .ok sub => getDepsList rec inst ns (unionL (unionL res [n]) sub)

/-- `DatabaseInstance._get_dependencies`: transitive dependency closure of
a set of coordinate names.  The fuel bounds the Python recursion depth
(the source recurses without bound on a cyclic registry). -/
def getDeps (inst : DatabaseInstance) : Nat → List String → Except DbErr (List String)
  | 0, _ => .error .fuel
  | Nat.succ f, names => getDepsList (getDeps inst f) inst names []

/-- Applicability test of the join loop: the computer produces a
still-needed column, all its dependencies are materialized, and its
products are not yet all present. -/
def applicable (allNames : List String) (dfCols : List String) (cc : CoordComputer) : Bool :=
  cc.coords.any (fun c => c ∈ allNames) &&
  cc.dependencies.all (fun d => d ∈ dfCols) &&
  !(cc.coords.all (fun c => c ∈ dfCols))

/-- Parameter frame passed to a compute function:
`df[dep_list].drop_duplicates()`. -/
def projectDedup (df : Table) (deps : List String) : Table :=
  ⟨deps, firstDedup (df.rows.map (fun r => Row.restrict r deps))⟩

/-- Pandas merge renaming: a column in the overlap set gets the default
suffix of its side appended (`_x` on the left, `_y` on the right); other
columns keep their name. -/
def renameOv (ov : List String) (sfx : String) (c : String) : String :=
  if c ∈ ov then c ++ sfx else c

/-- Overlapping columns of a merge: present on both sides and not join
keys (for a cross join every common column overlaps). -/
def mergeOverlap (df tmp : Table) (deps : List String) : List String :=
  if deps.isEmpty then df.cols.filter (fun c => c ∈ tmp.cols)
  else df.cols.filter (fun c => c ∈ tmp.cols ∧ c ∉ deps)

/-- Right-hand source columns of a merge: all right columns for a cross
join, the non-key right columns otherwise. -/
def mergeRightSrc (tmp : Table) (deps : List String) : List String :=
  if deps.isEmpty then tmp.cols else tmp.cols.filter (fun c => c ∉ deps)

/-- Row produced by `pandas.merge` for a matching pair: the left row's
columns (overlap renamed with `_x`) followed by the right source columns
(overlap renamed with `_y`), each cell taken from the side owning the
column. -/
def mergeRows (leftCols ov rs : List String) (r1 r2 : Row) : Row :=
  leftCols.map (fun c => (renameOv ov "_x" c, Row.get r1 c))
    ++ rs.map (fun c => (renameOv ov "_y" c, Row.get r2 c))

/-- `pandas.merge`: an inner equality join on `deps` when the computer has
dependencies, otherwise a cross join (`how="cross"`).  Non-key columns
present on both sides are kept from BOTH sides under the default `_x`/`_y`
suffixes, as pandas does.  A suffixed name that happens to collide with a
pre-existing column gets no further treatment, mirroring pandas' silent
duplicate labels in that corner. -/
def merge (df tmp : Table) (deps : List String) : Table :=
  let ov := mergeOverlap df tmp deps
  let rs := mergeRightSrc tmp deps
  if deps.isEmpty then
    ⟨df.cols.map (renameOv ov "_x") ++ rs.map (renameOv ov "_y"),
     df.rows.flatMap (fun r1 => tmp.rows.map (fun r2 => mergeRows df.cols ov rs r1 r2))⟩
  else
    ⟨df.cols.map (renameOv ov "_x") ++ rs.map (renameOv ov "_y"),
     df.rows.flatMap (fun r1 =>
       (tmp.rows.filter (fun r2 => deps.all (fun d => Row.get r1 d == Row.get r2 d))).map
         (fun r2 => mergeRows df.cols ov rs r1 r2))⟩

/-- One full scan over the declared computers (the `for` loop body of
`_get_coords_impl`): each applicable computer is computed on the
de-duplicated projection of its dependencies, its output is filtered, and
the result is joined in.  `pandas.merge` raises a `KeyError` when a join
column is missing from the computed frame. -/
def loopStep (sel : Selection) (allNames : List String) :
    List CoordComputer → Table → Except DbErr Table
  | [], df => .ok df
  | cc :: ccs, df =>
      if applicable allNames df.cols cc then
        let tmp := filterT (cc.compute (projectDedup df cc.dependencies)) sel
        if cc.dependencies.all (fun d => d ∈ tmp.cols) then
          loopStep sel allNames ccs (merge df tmp cc.dependencies)
        else .error (.keyError "merge column not found")
      else loopStep sel allNames ccs df

/-- The `while not all_names.issubset(df.columns)` loop, with fuel:
the source loops forever when no computer ever becomes applicable. -/
def loop (ccs : List CoordComputer) (sel : Selection) (allNames : List String) :
    Nat → Table → Except DbErr Table
  | 0, _ => .error .fuel
  | Nat.succ fuel, df =>
      if allNames.all (fun a => a ∈ df.cols) then .ok df
      else
        match loopStep sel allNames ccs df with
        | .error e => .error e
        | .ok df' => loop ccs sel allNames fuel df'

/-- Key of a row under the grouping columns `names`: `none` when any
grouping cell is `NaN` (such rows are dropped by `groupby`, whose default
is `dropna=True`). -/
def rowKey (names : List String) (r : Row) : Option (List Int) :=
  match names with
  | [] => some []
  | n :: ns =>
      match Row.get r n, rowKey ns r with
      | some v, some k => some (v :: k)
      | _, _ => none

/-- The rows of a group: those whose key equals `k`, in original order. -/
def groupRowsOf (names : List String) (rows : List Row) (k : List Int) : List Row :=
  rows.filter (fun r => rowKey names r = some k)

/-- The group keys, deduplicated and sorted ascending as `groupby` does. -/
def groupKeysOf (names : List String) (rows : List Row) : List (List Int) :=
  sortKeys (firstDedup (rows.filterMap (rowKey names)))

/-- The column test of `keep_unique_columns`:
`(df[col] == df[col].iat[0]).all() and ~pd.isna(df[col].iat[0])` — every
cell equals the group's first cell and that first cell is non-missing
(a `NaN` anywhere also fails the pandas `==` comparison). -/
def constNonMissing : List Row → String → Bool
  | [], _ => true
  | r :: rs, c =>
      match Row.get r c with
      | none => false
      | some v => rs.all (fun r' => Row.get r' c == some v)

/-- Columns a group keeps, in frame order. -/
def keptCols (df : Table) (g : List Row) : List String :=
  df.cols.filter (fun c => constNonMissing g c)

/-- Columns a group appends to the shared `cols_to_remove` list. -/
def removedCols (df : Table) (g : List Row) : List String :=
  df.cols.filter (fun c => !constNonMissing g c)

/-- First row of a group (`head(1)`); groups are never empty. -/
def headRow (g : List Row) : Row :=
  match g with
  | [] => []
  | r :: _ => r

/-- The collapse step of `_get_coords_impl`: group by the requested
columns, let each group keep one representative row restricted to its
constant non-missing columns (`keep_unique_columns`), concatenate the
per-group frames (pandas unions their columns in order of first
appearance, filling `NaN`), then drop every column that ANY group put on
the shared `cols_to_remove` list. -/
def collapse (names : List String) (df : Table) : Table :=
  let ks := groupKeysOf names df.rows
  let groups := ks.map (fun k => groupRowsOf names df.rows k)
  let colsToRemove := groups.foldl (fun acc g => acc ++ removedCols df g) []
  let resCols0 := groups.foldl (fun acc g => unionCols acc (keptCols df g)) []
  let resCols := resCols0.filter (fun c => c ∉ colsToRemove)
  ⟨resCols, groups.map (fun g => Row.restrict (Row.restrict (headRow g) (keptCols df g)) resCols)⟩

/-- `DatabaseInstance._get_coords_impl`: dependency closure, iterative
join starting from the one-row zero-column frame `pd.DataFrame([[]])`,
then (after the guard raising `Exception("Strange")` on an empty request)
the collapse step. -/
def getCoordsImpl (inst : DatabaseInstance) (fuel : Nat) (names : List String) (sel : Selection) :
    Except DbErr Table :=
  match getDeps inst fuel names with
  | .error e => .error e
  | .ok allNames =>
      match loop inst.db.coord_computers sel allNames fuel ⟨[], [[]]⟩ with
      | .error e => .error e
      | .ok df =>
          if names.isEmpty then .error (.exc "Strange")
          else .ok (collapse names df)

/-- `DatabaseInstance.get_coords` (without the `single` extraction): the
source converts `names` to a `frozenset` and memoizes on it; the claims
use duplicate-free name lists, for which the wrapper adds nothing. -/
def get_coords (inst : DatabaseInstance) (fuel : Nat) (names : List String) (sel : Selection) :
    Except DbErr Table :=
  getCoordsImpl inst fuel names sel

/-- `DatabaseInstance.get_locations`: resolve the coordinates of the data
declaration's dependencies, append a `location` column computed per row,
and drop the rows whose location is absent. -/
def get_locations (inst : DatabaseInstance) (fuel : Nat) (name : String) (sel : Selection) :
    Except DbErr Table :=
  match List.lookup name inst.db.data with
  | none => .error (.keyError name)
  | some d =>
      match get_coords inst fuel d.dependencies sel with
      | .error e => .error e
      | .ok coords =>
          let rows := coords.rows.map (fun r => r ++ [("location", d.get_location r)])
          .ok ⟨coords.cols ++ ["location"],
               rows.filter (fun r => (Row.get r "location").isSome)⟩

/-- `DatabaseInstance._extract_single`: raises unless the frame has
exactly one row, else returns that row's value in column `col`. -/
def extractSingle (t : Table) (col : String) : Except DbErr Cell :=
  match t.rows with
  | [r] => .ok (Row.get r col)
  | _ => .error (.exc "Problem. Expected a single line")

/-- `DatabaseInstance.get_single_location` evaluates
`DatabaseInstance._extract_unique`, an attribute that does not exist on
the class (the defined helper is `_extract_single`); Python resolves the
callee before evaluating its arguments, so every call raises
`AttributeError` unconditionally. -/
def get_single_location (_inst : DatabaseInstance) (_fuel : Nat) (_name : String)
    (_sel : Selection) : Except DbErr Cell :=
  .error (.attrError "_extract_unique")

/-- One action invocation on one resolved row:
`self.db.data[target].actions[action](self, row["location"],
row.drop("location").to_dict())` — a missing action name raises
`KeyError` inside the protected block. -/
def callAction (acts : List (String × ActionFn)) (action : String) (r : Row) :
    Except String Int :=
  match List.lookup action acts with
  | none => .error ("KeyError: " ++ action)
  | some a => a (Row.get r "location") (r.filter (fun p => p.1 ≠ "location"))

/-- The per-row dispatch loop of `run_action`: invoke the action for each
row in order; in fail-fast mode the first failure is re-raised, in
continue-on-error mode failures are collected. -/
def processRows (coe : Bool) (acts : List (String × ActionFn)) (action : String) :
    List Row → Except String (List Int × List String)
  | [] => .ok ([], [])
  | r :: rs =>
      match callAction acts action r with
      | .ok v =>
          (match processRows coe acts action rs with
           | .error e => .error e
           | .ok p => .ok (v :: p.1, p.2))
      | .error e =>
          if coe then
            (match processRows coe acts action rs with
             | .error e' => .error e'
             | .ok p => .ok (p.1, e :: p.2))
          else .error e

/-- Attach the in-order action results as a new column (`locs[action] =
results`; the source's one-row special case builds the same frame). -/
def attachResults (locs : Table) (action : String) (results : List Int) : Table :=
  ⟨locs.cols ++ [action],
   (locs.rows.zip results).map (fun p => p.1 ++ [(action, some p.2)])⟩

/-- `DatabaseInstance.run_action`: resolve locations, raise the
duplication error (carrying every row whose location collides) before any
action dispatch, short-circuit the special action name `"location"`,
otherwise dispatch per row and either raise the collected
`ExceptionGroup` or attach the results; the `single` flag extracts via
`_extract_single` on the action column. -/
def run_action (inst : DatabaseInstance) (fuel : Nat) (action target : String)
    (sel : Selection) (single : Bool) : Except DbErr (Table ⊕ Cell) :=
  match get_locations inst fuel target sel with
  | .error e => .error e
  | .ok locs =>
      let dups := dupIn (locs.rows.map (fun r => Row.get r "location"))
      if dups ≠ [] then
        .error (.dup ⟨locs.cols, locs.rows.filter (fun r => Row.get r "location" ∈ dups)⟩)
      else
        let step : Except DbErr Table :=
          if action = "location" then .ok locs
          else
            match List.lookup target inst.db.data with
            | none => .error (.keyError target)
            | some d =>
                match processRows inst.continue_on_error d.actions action locs.rows with
                | .error e => .error (.exc e)
                | .ok p =>
                    if p.2 ≠ [] then
                      .error (.excGroup ("During " ++ action ++ " for " ++ target) p.2)
                    else .ok (attachResults locs action p.1)
        match step with
        | .error e => .error e
        | .ok locs2 =>
            if single then
              match extractSingle locs2 action with
              | .error e => .error e
              | .ok v => .ok (Sum.inr v)
            else .ok (Sum.inl locs2)

/-- The artifact store seen by the caching wrapper: the set of locations
at which an artifact currently exists (locations, like cell values, are
modelled as integers). -/
abbrev FS := List Int

/-- Existence plus creation of an artifact; `safe_save` writes a temporary
sibling and atomically renames it onto the target, so its net effect on
the store is that the target exists. -/
def insertFS (p : Int) (fs : FS) : FS := if p ∈ fs then fs else fs ++ [p]

/-- The function produced by the `cache` decorator, with the wrapped
computation modelled as a state transformer on the artifact store (it may
itself create artifacts) returning an optional value.  The third output
component instruments how many times the wrapped computation ran: `0` on
a cache hit.  When the computation returns a value it is persisted at the
target via `safe_save`; when it returns nothing, nothing is persisted. -/
def cacheCall (force_recompute : Bool) (f : FS → Int → Option Int × FS)
    (fs : FS) (out_location : Int) : Int × FS × Nat :=
  if out_location ∈ fs ∧ force_recompute = false then (out_location, fs, 0)
  else
    let r := f fs out_location
    match r.1 with
    | none => (out_location, r.2, 1)
    | some _ => (out_location, insertFS out_location r.2, 1)

/-! ### Concrete registries used by the claims -/

/-- Coordinate computer for `a` with values `{1, 2, 3}` and no
dependencies (the non-vectorized adapter concatenates the frame
`pd.DataFrame([1,2,3], columns=["a"])` computed for the single empty
parameter row). -/
def cca : CoordComputer :=
  ⟨["a"], [], fun _ => ⟨["a"], [[("a", some 1)], [("a", some 2)], [("a", some 3)]]⟩⟩

/-- Coordinate computer for `b = a * 10` with dependency `{a}`: the
non-vectorized adapter computes `b` per parameter row and writes the
parameter `a` back into the result, yielding columns `["b", "a"]`. -/
def ccb : CoordComputer :=
  ⟨["b"], ["a"], fun t =>
    ⟨["b", "a"],
     t.rows.map (fun r =>
       [("b", (Row.get r "a").map (fun v => v * 10)), ("a", Row.get r "a")])⟩⟩

/-- Action used by the dispatch claims: fails exactly on location `2`. -/
def actGo : ActionFn := fun loc _ => if loc == some 2 then .error "boom" else .ok 5

/-- Data artifact `d`: location is the value of `a` itself, so the three
coordinate rows resolve to three distinct locations. -/
def dataD : Data := ⟨"d", ["a"], fun r => Row.get r "a", [("go", actGo)]⟩

/-- Data artifact `ddup`: every coordinate row resolves to location `7`,
forcing a duplicate-artifact collision. -/
def dataDup : Data := ⟨"ddup", ["a"], fun _ => some 7, []⟩

/-- The example registry. -/
def exDb : Database := ⟨"example", [cca, ccb], [("d", dataD), ("ddup", dataDup)]⟩

/-- Coordinate index of `exDb` as `instantiate` builds it. -/
def exCoords : List (String × CoordComputer) := [("a", cca), ("b", ccb)]

/-- The instantiated example registry (fail-fast mode). -/
def exInst : DatabaseInstance := ⟨exDb, exCoords, false⟩

/-- Computer producing `a` with values `{-1, 1}` and no dependencies. -/
def ccn : CoordComputer :=
  ⟨["a"], [], fun _ => ⟨["a"], [[("a", some (-1))], [("a", some 1)]]⟩⟩

/-- Registry with a negative coordinate value. -/
def negDb : Database := ⟨"neg", [ccn], []⟩

/-- Instance of the negative-value registry. -/
def negInst : DatabaseInstance := ⟨negDb, [("a", ccn)], false⟩

/-! ### Claim theorems: concrete claims -/

/-- Claim C1: for the registry whose coordinate computer produces column
`a` with values `{1, 2, 3}` (no dependencies) and whose second computer
produces `b = a * 10` (dependency `{a}`), resolving the coordinate set
`{a, b}` with an empty filter returns exactly the three rows
`(a, b) = (1, 10), (2, 20), (3, 30)`, with no duplicate and no missing
combination. -/
theorem c1_resolve_concrete :
    get_coords exInst 9 ["a", "b"] [] =
      .ok ⟨["a", "b"],
           [[("a", some 1), ("b", some 10)],
            [("a", some 2), ("b", some 20)],
            [("a", some 3), ("b", some 30)]]⟩ := by
  rfl

/-- Claim C5 (code bug): `get_single_location` always raises
`AttributeError` because it invokes the non-existent
`DatabaseInstance._extract_unique`.  Here the resolved location table has
exactly one row and `_extract_single` would have returned its location
value `1`, yet the call still fails instead of returning it. -/
theorem c5_get_single_location_attribute_error :
    get_single_location exInst 9 "d" [("a", FilterVal.exact 1)] =
        .error (.attrError "_extract_unique")
      ∧ get_locations exInst 9 "d" [("a", FilterVal.exact 1)] =
          .ok ⟨["a", "location"], [[("a", some 1), ("location", some 1)]]⟩
      ∧ extractSingle ⟨["a", "location"], [[("a", some 1), ("location", some 1)]]⟩
            "location" = .ok (some 1) :=
  ⟨rfl, rfl, rfl⟩

/-- Claim C2 counterexample: in the frame with requested column `n` and
extra column `c`, the column `c` is constant and non-missing across the
whole group `n = 1`, yet the returned representative row for that group
does not keep `c` — because `c` varies inside the other group `n = 2` and
the shared `cols_to_remove` list drops it globally.  Which columns a
group keeps therefore does depend on the column's values in other
groups, refuting the claim as stated. -/
theorem c2_counterexample :
    constNonMissing
        (groupRowsOf ["n"]
          [[("n", some 1), ("c", some 5)],
           [("n", some 2), ("c", some 7)],
           [("n", some 2), ("c", some 8)]] [1]) "c" = true
      ∧ collapse ["n"]
          ⟨["n", "c"],
           [[("n", some 1), ("c", some 5)],
            [("n", some 2), ("c", some 7)],
            [("n", some 2), ("c", some 8)]]⟩ =
          ⟨["n"], [[("n", some 1)], [("n", some 2)]]⟩
      ∧ "c" ∉ (["n"] : List String) :=
  ⟨rfl, rfl, by decide⟩

/-- Claim C4 counterexample: with the filter entry `a: slice(0, 2)` the
claim's reading demands `0 ≤ a < 2` for every returned row, but because
the source tests the bound with `if v.start` and `0` is falsy, the lower
bound is never applied: the returned table contains the row `a = -1`,
which violates `0 ≤ -1`. -/
theorem c4_counterexample :
    get_coords negInst 9 ["a"] [("a", FilterVal.range (some 0) (some 2) none)] =
        .ok ⟨["a"], [[("a", some (-1))], [("a", some 1)]]⟩
      ∧ [("a", some (-1))] ∈ ([[("a", some (-1))], [("a", some 1)]] : List Row)
      ∧ Row.get [("a", some (-1))] "a" = some (-1)
      ∧ ¬ ((0 : Int) ≤ -1 ∧ (-1 : Int) < 2) :=
  ⟨rfl, by decide, rfl, by decide⟩

/-! ### Claim C8: caching wrapper -/

/-- Persisting at a target makes it exist. -/
theorem mem_insertFS (p : Int) (fs : FS) : p ∈ insertFS p fs := by
  unfold insertFS
  split
  · assumption
  · simp

/-- Claim C8: with `force_recompute` unset, two consecutive invocations of
the cache-wrapped action for the same target with no intervening deletion
run the underlying computation at most once.  If the artifact exists the
wrapped call returns the target immediately without running the
computation; otherwise the first call runs it once and (provided the
computation returns a value to persist, or itself creates the artifact —
hypothesis `h`) the second call is a no-op returning the same identity. -/
theorem c8_cache_hit_no_recompute (f : FS → Int → Option Int × FS) (fs : FS) (out : Int)
    (h : (f fs out).1.isSome = true ∨ out ∈ (f fs out).2) :
    (out ∈ fs → cacheCall false f fs out = (out, fs, 0))
      ∧ (cacheCall false f fs out).1 = out
      ∧ (cacheCall false f fs out).2.2 ≤ 1
      ∧ cacheCall false f ((cacheCall false f fs out).2.1) out
          = (out, (cacheCall false f fs out).2.1, 0) := by
  have hsecond : ∀ fs1 : FS, out ∈ fs1 → cacheCall false f fs1 out = (out, fs1, 0) := by
    intro fs1 h1
    unfold cacheCall
    simp [h1]
  by_cases hm : out ∈ fs
  · have h1 := hsecond fs hm
    rw [h1]
    exact ⟨fun _ => rfl, rfl, Nat.zero_le 1, hsecond fs hm⟩
  · cases hr : (f fs out).1 with
    | none =>
        have h1 : cacheCall false f fs out = (out, (f fs out).2, 1) := by
          unfold cacheCall
          simp [hm, hr]
        have hout : out ∈ (f fs out).2 := by
          rcases h with h | h
          · rw [hr] at h
            simp at h
          · exact h
        rw [h1]
        exact ⟨fun hc => absurd hc hm, rfl, le_refl 1, hsecond _ hout⟩
    | some v =>
        have h1 : cacheCall false f fs out = (out, insertFS out (f fs out).2, 1) := by
          unfold cacheCall
          simp [hm, hr]
        rw [h1]
        exact ⟨fun hc => absurd hc hm, rfl, le_refl 1, hsecond _ (mem_insertFS out _)⟩

/-- Witness for claim C8: a computation returning the value `42`.
Starting from an empty store, the first call runs the computation once,
persists the artifact, and the second call is a pure cache hit. -/
theorem c8_witness :
    ((0 : Int) ∈ ([] : FS) → cacheCall false (fun s _ => (some 42, s)) [] 0 = (0, [], 0))
      ∧ (cacheCall false (fun s _ => (some 42, s)) [] 0).1 = 0
      ∧ (cacheCall false (fun s _ => (some 42, s)) [] 0).2.2 ≤ 1
      ∧ cacheCall false (fun s _ => (some 42, s))
            ((cacheCall false (fun s _ => (some 42, s)) [] 0).2.1) 0
          = (0, (cacheCall false (fun s _ => (some 42, s)) [] 0).2.1, 0) :=
  c8_cache_hit_no_recompute (fun s _ => (some 42, s)) [] 0 (Or.inl rfl)

/-! ### Claim C9: join defers duplicate-coordinate detection -/

/-- A key is found by `List.lookup` exactly when it occurs among the keys. -/
theorem lookup_isSome_iff {β : Type} (n : String) (l : List (String × β)) :
    (List.lookup n l).isSome = true ↔ n ∈ l.map Prod.fst := by
  induction l with
  | nil => simp [List.lookup]
  | cons p l ih =>
      obtain ⟨k, v⟩ := p
      by_cases h : n = k
      · subst h
        simp [List.lookup]
      · have hb : (n == k) = false := beq_eq_false_iff_ne.mpr h
        simp [List.lookup, hb, ih, h]

/-- Successful coordinate insertion appends exactly the inserted names and
keeps the index keys duplicate-free. -/
theorem addCoords_ok (cc : CoordComputer) :
    ∀ (cs : List String) (m m' : List (String × CoordComputer)),
      addCoords cc m cs = .ok m' → (m.map Prod.fst).Nodup →
      (m'.map Prod.fst).Nodup ∧ m'.map Prod.fst = m.map Prod.fst ++ cs
  | [], m, m' => by
      intro h hn
      cases h
      simpa using hn
  | c :: cs, m, m' => by
      intro h hn
      unfold addCoords at h
      by_cases hc : (List.lookup c m).isSome = true
      · rw [if_pos hc] at h
        cases h
      · rw [if_neg hc] at h
        have hcnot : c ∉ m.map Prod.fst := fun hmem =>
          hc ((lookup_isSome_iff c m).mpr hmem)
        have hn2 : ((m ++ [(c, cc)]).map Prod.fst).Nodup := by
          rw [List.map_append]
          simp [List.nodup_append, hn, hcnot]
        obtain ⟨h1, h2⟩ := addCoords_ok cc cs (m ++ [(c, cc)]) m' h hn2
        refine ⟨h1, ?_⟩
        rw [h2, List.map_append]
        simp

/-- A successful index build visits every coordinate of every computer,
so the produced key list is exactly the concatenation of all coordinate
sets, duplicate-free. -/
theorem buildIndex_ok :
    ∀ (ccs : List CoordComputer) (m m' : List (String × CoordComputer)),
      buildIndex m ccs = .ok m' → (m.map Prod.fst).Nodup →
      (m'.map Prod.fst).Nodup ∧
      m'.map Prod.fst = m.map Prod.fst ++ ccs.flatMap (fun cc => cc.coords)
  | [], m, m' => by
      intro h hn
      cases h
      simpa using hn
  | cc :: ccs', m, m' => by
      intro h hn
      unfold buildIndex at h
      cases hadd : addCoords cc m cc.coords with
      | error e => rw [hadd] at h; cases h
      | ok m1 =>
          rw [hadd] at h
          obtain ⟨hn1, heq1⟩ := addCoords_ok cc cc.coords m m1 hadd hn
          obtain ⟨hn2, heq2⟩ := buildIndex_ok ccs' m1 m' h hn1
          refine ⟨hn2, ?_⟩
          rw [heq2, heq1, List.flatMap_cons, List.append_assoc]

/-- Every failure of coordinate insertion is the duplicate-producer
exception. -/
theorem addCoords_error_shape (cc : CoordComputer) :
    ∀ (cs : List String) (m : List (String × CoordComputer)) (e : DbErr),
      addCoords cc m cs = .error e →
      ∃ c, e = .exc ("Coordinate " ++ c ++ " has two computers")
  | [], m, e => by
      intro h
      cases h
  | c :: cs, m, e => by
      intro h
      unfold addCoords at h
      by_cases hc : (List.lookup c m).isSome = true
      · rw [if_pos hc] at h
        cases h
        exact ⟨c, rfl⟩
      · rw [if_neg hc] at h
        exact addCoords_error_shape cc cs (m ++ [(c, cc)]) e h

/-- Every failure of the index build is the duplicate-producer
exception. -/
theorem buildIndex_error_shape :
    ∀ (ccs : List CoordComputer) (m : List (String × CoordComputer)) (e : DbErr),
      buildIndex m ccs = .error e →
      ∃ c, e = .exc ("Coordinate " ++ c ++ " has two computers")
  | [], m, e => by
      intro h
      cases h
  | cc :: ccs', m, e => by
      intro h
      unfold buildIndex at h
      cases hadd : addCoords cc m cc.coords with
      | error e' =>
          rw [hadd] at h
          cases h
          exact addCoords_error_shape cc cc.coords m e hadd
      | ok m1 =>
          rw [hadd] at h
          exact buildIndex_error_shape ccs' m1 e h

/-- Names of the `Data` declarations in an object list. -/
def dataNames : List DbObject → List String
  | [] => []
  | .cc _ :: os => dataNames os
  | .dataDecl d :: os => d.name :: dataNames os

/-- Coordinate computers in an object list, in order. -/
def ccsOf : List DbObject → List CoordComputer
  | [] => []
  | .cc c :: os => c :: ccsOf os
  | .dataDecl _ :: os => ccsOf os

/-- Declaring a list of objects succeeds whenever the data names are fresh
and duplicate-free (coordinate computers are never checked), and appends
all computers in order. -/
theorem declareAll_ok :
    ∀ (os : List DbObject) (db : Database), (db.data.map Prod.fst ++ dataNames os).Nodup →
      ∃ db', declareAll db os = .ok db' ∧
        db'.coord_computers = db.coord_computers ++ ccsOf os ∧
        db'.data.map Prod.fst = db.data.map Prod.fst ++ dataNames os
  | [], db => by
      intro hn
      exact ⟨db, rfl, by simp [ccsOf], by simp [dataNames]⟩
  | .cc c :: os, db => by
      intro hn
      obtain ⟨db', h1, h2, h3⟩ :=
        declareAll_ok os { db with coord_computers := db.coord_computers ++ [c] }
          (by simpa [dataNames] using hn)
      refine ⟨db', h1, ?_, by simpa [dataNames] using h3⟩
      rw [h2]
      simp [ccsOf, List.append_assoc]
  | .dataDecl d :: os, db => by
      intro hn
      have hfresh : d.name ∉ db.data.map Prod.fst := by
        have hd := List.disjoint_of_nodup_append (by simpa [dataNames] using hn)
        intro hmem
        exact hd hmem (by simp [dataNames])
      have hlook : (List.lookup d.name db.data).isSome = false := by
        rw [Bool.eq_false_iff]
        intro hs
        exact hfresh ((lookup_isSome_iff d.name db.data).mp hs)
      have hstep : db.declare (.dataDecl d) = .ok { db with data := db.data ++ [(d.name, d)] } := by
        simp [Database.declare, hlook]
      have hn2 : (({ db with data := db.data ++ [(d.name, d)] } : Database).data.map Prod.fst
          ++ dataNames os).Nodup := by
        simpa [dataNames, List.append_assoc] using hn
      obtain ⟨db', h1, h2, h3⟩ :=
        declareAll_ok os { db with data := db.data ++ [(d.name, d)] } hn2
      refine ⟨db', ?_, by simpa [ccsOf] using h2, ?_⟩
      · unfold declareAll
        rw [hstep]
        exact h1
      · rw [h3]
        simp [dataNames, List.append_assoc]

/-- Concatenation laws for `dataNames`. -/
theorem dataNames_append (l1 l2 : List DbObject) :
    dataNames (l1 ++ l2) = dataNames l1 ++ dataNames l2 := by
  induction l1 with
  | nil => rfl
  | cons o l ih => cases o <;> simp [dataNames, ih]

/-- Concatenation laws for `ccsOf`. -/
theorem ccsOf_append (l1 l2 : List DbObject) :
    ccsOf (l1 ++ l2) = ccsOf l1 ++ ccsOf l2 := by
  induction l1 with
  | nil => rfl
  | cons o l ih => cases o <;> simp [ccsOf, ih]

/-- Coordinate-computer objects carry no data names. -/
theorem dataNames_map_cc (l : List CoordComputer) :
    dataNames (l.map DbObject.cc) = [] := by
  induction l with
  | nil => rfl
  | cons c l ih => simp [dataNames, ih]

/-- Data objects carry exactly their declaration names. -/
theorem dataNames_map_data (l : List (String × Data)) :
    dataNames (l.map (fun p => DbObject.dataDecl p.2)) = l.map (fun p => p.2.name) := by
  induction l with
  | nil => rfl
  | cons p l ih => simp [dataNames, ih]

/-- Coordinate-computer objects are exactly the computers. -/
theorem ccsOf_map_cc (l : List CoordComputer) :
    ccsOf (l.map DbObject.cc) = l := by
  induction l with
  | nil => rfl
  | cons c l ih => simp [ccsOf, ih]

/-- Data objects carry no computers. -/
theorem ccsOf_map_data (l : List (String × Data)) :
    ccsOf (l.map (fun p => DbObject.dataDecl p.2)) = [] := by
  induction l with
  | nil => rfl
  | cons p l ih => simp [ccsOf, ih]

/-- Claim C9: `Database.join` succeeds even when the joined registries
contain two coordinate computers producing the same coordinate name —
only `Data`-name collisions are checked at join time — and the
duplicate-producer error is raised later, when the joined registry is
instantiated (the Python `initialize`) and the coordinate-to-computer
index is built. -/
theorem c9_join_defers_duplicate_producer (db1 db2 : Database) (c : String)
    (cc1 cc2 : CoordComputer)
    (hnames : ((db1.data ++ db2.data).map (fun p => p.2.name)).Nodup)
    (h1 : cc1 ∈ db1.coord_computers) (h2 : cc2 ∈ db2.coord_computers)
    (hc1 : c ∈ cc1.coords) (hc2 : c ∈ cc2.coords) :
    ∃ joined, Database.join [db1, db2] none = .ok joined
      ∧ joined.coord_computers = db1.coord_computers ++ db2.coord_computers
      ∧ ∃ c', Database.instantiate joined =
          .error (.exc ("Coordinate " ++ c' ++ " has two computers")) := by
  have hdn :
      dataNames ([db1, db2].flatMap (fun d => d.coord_computers.map DbObject.cc
          ++ d.data.map (fun p => DbObject.dataDecl p.2)))
        = db1.data.map (fun p => p.2.name) ++ db2.data.map (fun p => p.2.name) := by
    simp [dataNames_append, dataNames_map_cc, dataNames_map_data, dataNames]
  have hcs :
      ccsOf ([db1, db2].flatMap (fun d => d.coord_computers.map DbObject.cc
          ++ d.data.map (fun p => DbObject.dataDecl p.2)))
        = db1.coord_computers ++ db2.coord_computers := by
    simp [ccsOf_append, ccsOf_map_cc, ccsOf_map_data, ccsOf]
  obtain ⟨joined, hj, hjc, _⟩ :=
    declareAll_ok
      ([db1, db2].flatMap (fun d => d.coord_computers.map DbObject.cc
        ++ d.data.map (fun p => DbObject.dataDecl p.2)))
      ⟨"Joined(" ++ String.intercalate ", " ([db1, db2].map (fun d => d.name)) ++ ")", [], []⟩
      (by
        rw [hdn]
        simpa [List.map_append] using hnames)
  have hjc' : joined.coord_computers = db1.coord_computers ++ db2.coord_computers := by
    rw [hjc, hcs]
    rfl
  refine ⟨joined, hj, hjc', ?_⟩
  have hdup :
      ¬ ((db1.coord_computers ++ db2.coord_computers).flatMap (fun cc => cc.coords)).Nodup := by
    intro hnd
    rw [List.flatMap_append] at hnd
    exact List.disjoint_of_nodup_append hnd
      (List.mem_flatMap.mpr ⟨cc1, h1, hc1⟩) (List.mem_flatMap.mpr ⟨cc2, h2, hc2⟩)
  cases hbi : buildIndex [] joined.coord_computers with
  | ok m =>
      exfalso
      obtain ⟨hn, heq⟩ := buildIndex_ok joined.coord_computers [] m hbi (by simp)
      rw [heq, hjc'] at hn
      exact hdup (by simpa using hn)
  | error e =>
      obtain ⟨c', hc'⟩ := buildIndex_error_shape joined.coord_computers [] e hbi
      refine ⟨c', ?_⟩
      unfold Database.instantiate
      rw [hbi, hc']

/-- Registry declaring the first computer for `a`. -/
def joinDb1 : Database := ⟨"one", [cca], []⟩

/-- Registry declaring a second computer for `a`. -/
def joinDb2 : Database := ⟨"two", [ccn], []⟩

/-- Witness for claim C9: joining two registries that both produce
coordinate `a` succeeds, and instantiation then raises the
duplicate-producer error. -/
theorem c9_witness :
    ∃ joined, Database.join [joinDb1, joinDb2] none = .ok joined
      ∧ joined.coord_computers = joinDb1.coord_computers ++ joinDb2.coord_computers
      ∧ ∃ c', Database.instantiate joined =
          .error (.exc ("Coordinate " ++ c' ++ " has two computers")) :=
  c9_join_defers_duplicate_producer joinDb1 joinDb2 "a" cca ccn
    (by simp [joinDb1, joinDb2]) (by simp [joinDb1]) (by simp [joinDb2])
    (by simp [cca]) (by simp [ccn])

/-! ### Claim C6: duplicate-artifact detection -/

/-- The duplicate scan is empty exactly on duplicate-free lists (with no
prior elements recorded in `seen`). -/
theorem dupInAux_eq_nil_iff {α : Type} [DecidableEq α] :
    ∀ (l : List α) (seen : List α),
      dupInAux seen l = [] ↔ l.Nodup ∧ ∀ x ∈ l, x ∉ seen
  | [], seen => by simp [dupInAux]
  | a :: l, seen => by
      by_cases ha : a ∈ seen
      · unfold dupInAux
        rw [if_pos ha]
        constructor
        · intro h
          exact absurd h (List.cons_ne_nil _ _)
        · rintro ⟨-, hall⟩
          exact absurd ha (hall a (List.mem_cons_self a l))
      · unfold dupInAux
        rw [if_neg ha, dupInAux_eq_nil_iff l (a :: seen)]
        constructor
        · rintro ⟨hnd, hall⟩
          refine ⟨List.nodup_cons.mpr ⟨fun hmem =>
              absurd (List.mem_cons_self a seen) (hall a hmem), hnd⟩, ?_⟩
          intro x hx
          rcases List.mem_cons.mp hx with hx | hx
          · subst hx
            exact ha
          · intro hs
            exact hall x hx (List.mem_cons_of_mem a hs)
        · rintro ⟨hnd, hall⟩
          obtain ⟨hal, hnd'⟩ := List.nodup_cons.mp hnd
          refine ⟨hnd', ?_⟩
          intro x hx hs
          rcases List.mem_cons.mp hs with hs | hs
          · subst hs
            exact hal hx
          · exact hall x (List.mem_cons_of_mem a hx) hs

/-- `Series.duplicated().any()` is false exactly on duplicate-free
location lists. -/
theorem dupIn_eq_nil_iff {α : Type} [DecidableEq α] (l : List α) :
    dupIn l = [] ↔ l.Nodup := by
  unfold dupIn
  rw [dupInAux_eq_nil_iff]
  simp

/-- Claim C6: `run_action` resolves locations first and, whenever two
distinct resolved rows share the same location value, raises the
duplication error — carrying the colliding rows — for EVERY action name
(including the special name `"location"`) and for both `single` modes;
no per-row action is invoked, as the error does not depend on the
registered action callbacks at all. -/
theorem c6_run_action_duplicate_location (inst : DatabaseInstance) (fuel : Nat)
    (target : String) (sel : Selection) (locs : Table)
    (hloc : get_locations inst fuel target sel = .ok locs)
    (hdup : ¬ (locs.rows.map (fun r => Row.get r "location")).Nodup) :
    ∀ (action : String) (single : Bool),
      run_action inst fuel action target sel single =
        .error (.dup ⟨locs.cols, locs.rows.filter (fun r =>
          Row.get r "location" ∈ dupIn (locs.rows.map (fun r => Row.get r "location")))⟩) := by
  intro action single
  have hne : dupIn (locs.rows.map (fun r => Row.get r "location")) ≠ [] := by
    intro h
    exact hdup ((dupIn_eq_nil_iff _).mp h)
  unfold run_action
  rw [hloc]
  simp [hne]

/-- Witness for claim C6: in the example registry, all three coordinate
rows of `ddup` resolve to location `7`; `run_action` raises the
duplication error carrying all three rows. -/
theorem c6_witness :
    run_action exInst 9 "compute" "ddup" [] false =
      .error (.dup ⟨["a", "location"],
        [[("a", some 1), ("location", some 7)],
         [("a", some 2), ("location", some 7)],
         [("a", some 3), ("location", some 7)]]⟩) := by
  have h := c6_run_action_duplicate_location exInst 9 "ddup" []
      ⟨["a", "location"],
       [[("a", some 1), ("location", some 7)],
        [("a", some 2), ("location", some 7)],
        [("a", some 3), ("location", some 7)]]⟩
      rfl (by decide) "compute" false
  exact h

/-! ### Claim C7: partial-failure aggregation -/

/-- Error message of a failed invocation, if any. -/
def errOf : Except String Int → Option String
  | .error e => some e
  | .ok _ => none

/-- Result value of a successful invocation, if any. -/
def okOf : Except String Int → Option Int
  | .ok v => some v
  | .error _ => none

/-- In continue-on-error mode the loop never raises: it returns the
in-order successful results and the in-order collected failures. -/
theorem processRows_coe (acts : List (String × ActionFn)) (action : String) :
    ∀ rows : List Row,
      processRows true acts action rows =
        .ok (rows.filterMap (fun r => okOf (callAction acts action r)),
             rows.filterMap (fun r => errOf (callAction acts action r)))
  | [] => rfl
  | r :: rows => by
      unfold processRows
      rw [processRows_coe acts action rows]
      cases hc : callAction acts action r with
      | ok v => simp [okOf, errOf, hc]
      | error e => simp [okOf, errOf, hc]

/-- In fail-fast mode the loop raises the first failure in processing
order. -/
theorem processRows_failfast_err (acts : List (String × ActionFn)) (action : String) :
    ∀ (rows : List Row) (e : String),
      (rows.filterMap (fun r => errOf (callAction acts action r))).head? = some e →
      processRows false acts action rows = .error e
  | [], e => by
      intro h
      simp at h
  | r :: rows, e => by
      intro h
      unfold processRows
      cases hc : callAction acts action r with
      | ok v =>
          simp only [List.filterMap_cons, hc, errOf] at h
          rw [processRows_failfast_err acts action rows e h]
      | error e' =>
          simp only [List.filterMap_cons, hc, errOf, List.head?_cons, Option.some.injEq] at h
          subst h
          rfl

/-- In fail-fast mode a failure-free batch returns all results. -/
theorem processRows_failfast_ok (acts : List (String × ActionFn)) (action : String) :
    ∀ rows : List Row,
      (∀ r ∈ rows, errOf (callAction acts action r) = none) →
      processRows false acts action rows =
        .ok (rows.filterMap (fun r => okOf (callAction acts action r)), [])
  | [] => by
      intro _
      rfl
  | r :: rows => by
      intro h
      unfold processRows
      cases hc : callAction acts action r with
      | ok v =>
          rw [processRows_failfast_ok acts action rows (fun r' hr' => h r' (List.mem_cons_of_mem r hr'))]
          simp [okOf, hc]
      | error e =>
          have := h r (List.mem_cons_self r rows)
          rw [hc] at this
          exact absurd this (by simp [errOf])

/-- The number of collected failures equals the number of failing rows. -/
theorem length_filterMap_errOf (acts : List (String × ActionFn)) (action : String) :
    ∀ rows : List Row,
      (rows.filterMap (fun r => errOf (callAction acts action r))).length =
        (rows.filter (fun r => (errOf (callAction acts action r)).isSome)).length
  | [] => rfl
  | r :: rows => by
      cases hc : errOf (callAction acts action r) with
      | none => simp [List.filterMap_cons, List.filter_cons, hc,
          length_filterMap_errOf acts action rows]
      | some e => simp [List.filterMap_cons, List.filter_cons, hc,
          length_filterMap_errOf acts action rows]

/-- Claim C7: for a resolved batch with no location collision and an
action other than `"location"`, let `F` be the sub-list of rows on which
the action callback fails.  In continue-on-error mode every row is
processed and, when `F` is non-empty, the call raises one `ExceptionGroup`
containing exactly one component failure per failing row (`|F|` of them);
when `F` is empty the call returns normally with the results attached as a
new column.  In fail-fast mode the call raises the error of the first
failing row in processing order. -/
theorem c7_failure_aggregation (dbase : Database) (idx : List (String × CoordComputer))
    (fuel : Nat) (action target : String) (sel : Selection) (locs : Table) (d : Data)
    (hloc : get_locations ⟨dbase, idx, true⟩ fuel target sel = .ok locs)
    (hlocF : get_locations ⟨dbase, idx, false⟩ fuel target sel = .ok locs)
    (hnodup : (locs.rows.map (fun r => Row.get r "location")).Nodup)
    (ha : action ≠ "location")
    (hdata : List.lookup target dbase.data = some d) :
    (locs.rows.filter (fun r => (errOf (callAction d.actions action r)).isSome) ≠ [] →
        run_action ⟨dbase, idx, true⟩ fuel action target sel false =
          .error (.excGroup ("During " ++ action ++ " for " ++ target)
            (locs.rows.filterMap (fun r => errOf (callAction d.actions action r))))
        ∧ (locs.rows.filterMap (fun r => errOf (callAction d.actions action r))).length =
            (locs.rows.filter (fun r => (errOf (callAction d.actions action r)).isSome)).length)
      ∧ (locs.rows.filter (fun r => (errOf (callAction d.actions action r)).isSome) = [] →
          run_action ⟨dbase, idx, true⟩ fuel action target sel false =
            .ok (.inl (attachResults locs action
              (locs.rows.filterMap (fun r => okOf (callAction d.actions action r))))))
      ∧ (∀ e, (locs.rows.filterMap (fun r => errOf (callAction d.actions action r))).head? = some e →
          run_action ⟨dbase, idx, false⟩ fuel action target sel false = .error (.exc e)) := by
  have hd : dupIn (locs.rows.map (fun r => Row.get r "location")) = [] :=
    (dupIn_eq_nil_iff _).mpr hnodup
  have hlen := length_filterMap_errOf d.actions action locs.rows
  refine ⟨?_, ?_, ?_⟩
  · intro hF
    have herr : locs.rows.filterMap (fun r => errOf (callAction d.actions action r)) ≠ [] := by
      intro h0
      apply hF
      have hz := hlen
      rw [h0] at hz
      exact List.eq_nil_of_length_eq_zero hz.symm
    refine ⟨?_, hlen⟩
    unfold run_action
    rw [hloc]
    simp [hd, ha, hdata, processRows_coe, herr]
  · intro hF
    have herr : locs.rows.filterMap (fun r => errOf (callAction d.actions action r)) = [] := by
      rw [hF] at hlen
      exact List.eq_nil_of_length_eq_zero (by simpa using hlen)
    unfold run_action
    rw [hloc]
    simp [hd, ha, hdata, processRows_coe, herr]
  · intro e he
    unfold run_action
    rw [hlocF]
    simp [hd, ha, hdata, processRows_failfast_err d.actions action locs.rows e he]

/-- Witness for claim C7: the `go` action of artifact `d` fails exactly on
the row with location `2` out of three rows.  Continue-on-error raises one
`ExceptionGroup` with exactly one component; fail-fast raises that first
failure directly. -/
theorem c7_witness :
    run_action ⟨exDb, exCoords, true⟩ 9 "go" "d" [] false =
        .error (.excGroup "During go for d" ["boom"])
      ∧ run_action ⟨exDb, exCoords, false⟩ 9 "go" "d" [] false = .error (.exc "boom") := by
  have h := c7_failure_aggregation exDb exCoords 9 "go" "d" []
      ⟨["a", "location"],
       [[("a", some 1), ("location", some 1)],
        [("a", some 2), ("location", some 2)],
        [("a", some 3), ("location", some 3)]]⟩
      dataD rfl rfl (by decide) (by decide) rfl
  exact ⟨(h.1 (by decide)).1, h.2.2 "boom" (by decide)⟩

/-! ### Lemmas about rows, deduplication, sorting and group keys -/

/-- Lookup in a self-keyed association list built over `cs`. -/
theorem lookup_map_self (f : String → Cell) (cs : List String) (c : String) (h : c ∈ cs) :
    List.lookup c (cs.map (fun x => (x, f x))) = some (f c) := by
  induction cs with
  | nil => cases h
  | cons x cs ih =>
      by_cases hcx : c = x
      · subst hcx
        simp [List.lookup_cons]
      · have hb : (c == x) = false := beq_eq_false_iff_ne.mpr hcx
        rcases List.mem_cons.mp h with h' | h'
        · exact absurd h' hcx
        · simp [List.lookup_cons, hb, ih h']

/-- A key outside the generating columns is not found. -/
theorem lookup_map_self_none (f : String → Cell) (cs : List String) (c : String) (h : c ∉ cs) :
    List.lookup c (cs.map (fun x => (x, f x))) = none := by
  induction cs with
  | nil => rfl
  | cons x cs ih =>
      have hcx : c ≠ x := fun he => h (he ▸ List.mem_cons_self x cs)
      have hb : (c == x) = false := beq_eq_false_iff_ne.mpr hcx
      simp [List.lookup_cons, hb, ih (fun hm => h (List.mem_cons_of_mem x hm))]

/-- Restriction preserves the cells of the retained columns. -/
theorem Row.get_restrict_mem (r : Row) (cs : List String) (c : String) (h : c ∈ cs) :
    Row.get (Row.restrict r cs) c = Row.get r c := by
  unfold Row.get Row.restrict
  rw [lookup_map_self (fun x => Row.get r x) cs c h]
  rfl

/-- A dropped column reads as `NaN` after restriction. -/
theorem Row.get_restrict_not_mem (r : Row) (cs : List String) (c : String) (h : c ∉ cs) :
    Row.get (Row.restrict r cs) c = none := by
  unfold Row.get Row.restrict
  rw [lookup_map_self_none (fun x => Row.get r x) cs c h]
  rfl

/-- Membership in the first-occurrence deduplication. -/
theorem mem_firstDedupAux {α : Type} [DecidableEq α] :
    ∀ (l seen : List α) (a : α), a ∈ firstDedupAux seen l ↔ a ∈ l ∧ a ∉ seen
  | [], seen, a => by simp [firstDedupAux]
  | b :: l, seen, a => by
      by_cases hb : b ∈ seen
      · simp only [firstDedupAux, if_pos hb]
        rw [mem_firstDedupAux l seen a]
        constructor
        · rintro ⟨h1, h2⟩
          exact ⟨List.mem_cons_of_mem b h1, h2⟩
        · rintro ⟨h1, h2⟩
          rcases List.mem_cons.mp h1 with rfl | h1
          · exact absurd hb h2
          · exact ⟨h1, h2⟩
      · simp only [firstDedupAux, if_neg hb]
        rw [List.mem_cons, mem_firstDedupAux l (b :: seen) a]
        constructor
        · rintro (rfl | ⟨h1, h2⟩)
          · exact ⟨List.mem_cons_self a l, hb⟩
          · exact ⟨List.mem_cons_of_mem b h1,
              fun hs => h2 (List.mem_cons_of_mem b hs)⟩
        · rintro ⟨h1, h2⟩
          by_cases hab : a = b
          · exact Or.inl hab
          · rcases List.mem_cons.mp h1 with rfl | h1
            · exact absurd rfl hab
            · refine Or.inr ⟨h1, fun hs => ?_⟩
              rcases List.mem_cons.mp hs with rfl | hs
              · exact hab rfl
              · exact h2 hs

/-- The deduplicated list is duplicate-free. -/
theorem nodup_firstDedupAux {α : Type} [DecidableEq α] :
    ∀ (l seen : List α), (firstDedupAux seen l).Nodup
  | [], seen => by simp [firstDedupAux]
  | b :: l, seen => by
      by_cases hb : b ∈ seen
      · simp only [firstDedupAux, if_pos hb]
        exact nodup_firstDedupAux l seen
      · simp only [firstDedupAux, if_neg hb]
        refine List.nodup_cons.mpr ⟨?_, nodup_firstDedupAux l (b :: seen)⟩
        intro hmem
        exact ((mem_firstDedupAux l (b :: seen) b).mp hmem).2 (List.mem_cons_self b seen)

/-- Membership after sorted insertion. -/
theorem mem_insertKey (k : List Int) :
    ∀ (ks : List (List Int)) (a : List Int), a ∈ insertKey k ks ↔ a = k ∨ a ∈ ks
  | [], a => by simp [insertKey]
  | x :: ks, a => by
      simp only [insertKey]
      split
      · simp only [List.mem_cons]
      · rw [List.mem_cons, mem_insertKey k ks a, List.mem_cons]
        tauto

/-- Sorted insertion of a fresh key keeps the list duplicate-free. -/
theorem nodup_insertKey (k : List Int) :
    ∀ ks : List (List Int), k ∉ ks → ks.Nodup → (insertKey k ks).Nodup
  | [], _, _ => by simp [insertKey]
  | x :: ks, hk, hnd => by
      simp only [insertKey]
      obtain ⟨hx, hnd'⟩ := List.nodup_cons.mp hnd
      split
      · exact List.nodup_cons.mpr ⟨hk, hnd⟩
      · refine List.nodup_cons.mpr ⟨?_,
          nodup_insertKey k ks (fun h => hk (List.mem_cons_of_mem x h)) hnd'⟩
        intro hmem
        rcases (mem_insertKey k ks x).mp hmem with h | h
        · exact hk (by rw [← h]; exact List.mem_cons_self x ks)
        · exact hx h

/-- Sorting preserves membership. -/
theorem mem_sortKeys :
    ∀ (ks : List (List Int)) (a : List Int), a ∈ sortKeys ks ↔ a ∈ ks
  | [], a => by simp [sortKeys]
  | k :: ks, a => by
      simp only [sortKeys]
      rw [mem_insertKey, mem_sortKeys ks a, List.mem_cons]

/-- Sorting preserves duplicate-freedom. -/
theorem nodup_sortKeys : ∀ ks : List (List Int), ks.Nodup → (sortKeys ks).Nodup
  | [], _ => by simp [sortKeys]
  | k :: ks, hnd => by
      obtain ⟨hk, hnd'⟩ := List.nodup_cons.mp hnd
      simp only [sortKeys]
      exact nodup_insertKey k (sortKeys ks)
        (fun h => hk ((mem_sortKeys ks k).mp h)) (nodup_sortKeys ks hnd')

/-- Inversion of a defined group key on a non-empty name list. -/
theorem rowKey_cons_some (m : String) (ns : List String) (r : Row) (k : List Int)
    (h : rowKey (m :: ns) r = some k) :
    ∃ v k', Row.get r m = some v ∧ rowKey ns r = some k' ∧ k = v :: k' := by
  unfold rowKey at h
  cases hm : Row.get r m with
  | none =>
      rw [hm] at h
      cases hrest : rowKey ns r with
      | none => rw [hrest] at h; cases h
      | some k' => rw [hrest] at h; cases h
  | some v =>
      rw [hm] at h
      cases hrest : rowKey ns r with
      | none => rw [hrest] at h; cases h
      | some k' =>
          rw [hrest] at h
          cases h
          exact ⟨v, k', rfl, rfl, rfl⟩

/-- Two rows with the same defined group key agree — with non-missing
values — on every grouping column. -/
theorem rowKey_get_eq (names : List String) (r r' : Row) (k : List Int)
    (h : rowKey names r = some k) (h' : rowKey names r' = some k) :
    ∀ n ∈ names, Row.get r' n = Row.get r n ∧ (Row.get r n).isSome = true := by
  induction names generalizing k with
  | nil =>
      intro n hn
      cases hn
  | cons m ns ih =>
      obtain ⟨v, k1, hm, hrest, hk⟩ := rowKey_cons_some m ns r k h
      subst hk
      obtain ⟨v', k1', hm', hrest', hk'⟩ := rowKey_cons_some m ns r' (v :: k1) h'
      injection hk' with hv hk1
      subst hv
      subst hk1
      intro n hn
      rcases List.mem_cons.mp hn with rfl | hn'
      · rw [hm, hm']
        exact ⟨rfl, rfl⟩
      · exact ih k1 hrest hrest' n hn'

/-- Rows with equal cells on the grouping columns have equal keys. -/
theorem rowKey_congr (names : List String) (r1 r2 : Row)
    (h : ∀ n ∈ names, Row.get r1 n = Row.get r2 n) :
    rowKey names r1 = rowKey names r2 := by
  induction names with
  | nil => rfl
  | cons m ns ih =>
      unfold rowKey
      rw [h m (List.mem_cons_self m ns), ih (fun n hn => h n (List.mem_cons_of_mem m hn))]

/-- The group keys are exactly the defined keys of the rows. -/
theorem mem_groupKeysOf (names : List String) (rows : List Row) (k : List Int) :
    k ∈ groupKeysOf names rows ↔ ∃ r ∈ rows, rowKey names r = some k := by
  unfold groupKeysOf firstDedup
  rw [mem_sortKeys, mem_firstDedupAux]
  simp [List.mem_filterMap]

/-- The group keys are duplicate-free. -/
theorem nodup_groupKeysOf (names : List String) (rows : List Row) :
    (groupKeysOf names rows).Nodup :=
  nodup_sortKeys _ (nodup_firstDedupAux _ _)

/-- Membership in a group. -/
theorem mem_groupRowsOf (names : List String) (rows : List Row) (k : List Int) (r : Row) :
    r ∈ groupRowsOf names rows k ↔ r ∈ rows ∧ rowKey names r = some k := by
  unfold groupRowsOf
  simp [List.mem_filter]

/-- Groups of listed keys are non-empty. -/
theorem groupRowsOf_ne_nil (names : List String) (rows : List Row) (k : List Int)
    (h : k ∈ groupKeysOf names rows) : groupRowsOf names rows k ≠ [] := by
  obtain ⟨r, hr, hk⟩ := (mem_groupKeysOf names rows k).mp h
  intro hnil
  have hmem : r ∈ groupRowsOf names rows k := (mem_groupRowsOf names rows k r).mpr ⟨hr, hk⟩
  rw [hnil] at hmem
  cases hmem

/-- The representative row belongs to its group. -/
theorem headRow_mem (g : List Row) (h : g ≠ []) : headRow g ∈ g := by
  cases g with
  | nil => exact absurd rfl h
  | cons r g => exact List.mem_cons_self r g

/-- A constant column reads the same value on every row of the group. -/
theorem constNonMissing_eq_head (g : List Row) (c : String)
    (hc : constNonMissing g c = true) :
    ∀ r ∈ g, Row.get r c = Row.get (headRow g) c := by
  cases g with
  | nil =>
      intro r hr
      cases hr
  | cons r0 g =>
      intro r hr
      simp only [constNonMissing] at hc
      cases hm : Row.get r0 c with
      | none => rw [hm] at hc; cases hc
      | some v =>
          rw [hm] at hc
          show Row.get r c = Row.get r0 c
          rcases List.mem_cons.mp hr with rfl | hr'
          · rfl
          · have hall := List.all_eq_true.mp hc r hr'
            have hbeq : Row.get r c = some v := by

              exact beq_iff_eq.mp (by simpa using hall)
            rw [hbeq, hm]

/-- A constant column is non-missing on the representative row. -/
theorem constNonMissing_head_isSome (g : List Row) (c : String) (hne : g ≠ [])
    (hc : constNonMissing g c = true) : (Row.get (headRow g) c).isSome = true := by
  cases g with
  | nil => exact absurd rfl hne
  | cons r0 g =>
      simp only [constNonMissing] at hc
      cases hm : Row.get r0 c with
      | none => rw [hm] at hc; cases hc
      | some v =>
          show (Row.get r0 c).isSome = true
          rw [hm]
          rfl

/-- Grouping columns are constant and non-missing on every group. -/
theorem constNonMissing_of_key (names : List String) (rows : List Row) (k : List Int)
    (hk : k ∈ groupKeysOf names rows) (n : String) (hn : n ∈ names) :
    constNonMissing (groupRowsOf names rows k) n = true := by
  have hne := groupRowsOf_ne_nil names rows k hk
  have hhead : rowKey names (headRow (groupRowsOf names rows k)) = some k :=
    ((mem_groupRowsOf names rows k _).mp (headRow_mem _ hne)).2
  cases hg : groupRowsOf names rows k with
  | nil => exact absurd hg hne
  | cons r0 g =>
      have hr0 : rowKey names r0 = some k := by
        rw [hg] at hhead
        exact hhead
      obtain ⟨v, hv⟩ : ∃ v, Row.get r0 n = some v := by
        have h2 := rowKey_get_eq names r0 r0 k hr0 hr0 n hn
        cases hsome : Row.get r0 n with
        | none =>
            rw [hsome] at h2
            exact absurd h2.2 (by simp)
        | some v => exact ⟨v, rfl⟩
      simp only [constNonMissing]
      rw [hv, List.all_eq_true]
      intro r' hr'
      have hr'k : rowKey names r' = some k := by
        have : r' ∈ groupRowsOf names rows k := by
          rw [hg]
          exact List.mem_cons_of_mem r0 hr'
        exact ((mem_groupRowsOf names rows k r').mp this).2
      have heq := (rowKey_get_eq names r0 r' k hr0 hr'k n hn).1
      rw [heq, hv]
      exact beq_self_eq_true _

/-! ### Collapse characterization -/

/-- Membership in a column union. -/
theorem mem_unionCols :
    ∀ (ys xs : List String) (a : String), a ∈ unionCols xs ys ↔ a ∈ xs ∨ a ∈ ys
  | [], xs, a => by simp [unionCols]
  | c :: cs, xs, a => by
      simp only [unionCols]
      rw [mem_unionCols cs _ a]
      by_cases hc : c ∈ xs
      · rw [if_pos hc]
        rw [List.mem_cons]
        constructor
        · rintro (h | h)
          · exact Or.inl h
          · exact Or.inr (Or.inr h)
        · rintro (h | rfl | h)
          · exact Or.inl h
          · exact Or.inl hc
          · exact Or.inr h
      · rw [if_neg hc]
        simp only [List.mem_append, List.mem_singleton, List.mem_cons]
        tauto

/-- Column union preserves duplicate-freedom. -/
theorem nodup_unionCols :
    ∀ (ys xs : List String), xs.Nodup → (unionCols xs ys).Nodup
  | [], xs, h => by simpa [unionCols] using h
  | c :: cs, xs, h => by
      simp only [unionCols]
      by_cases hc : c ∈ xs
      · rw [if_pos hc]
        exact nodup_unionCols cs xs h
      · rw [if_neg hc]
        refine nodup_unionCols cs (xs ++ [c]) ?_
        simp [List.nodup_append, h, hc]

/-- Membership in the folded column union over groups. -/
theorem mem_foldl_unionCols {β : Type} (f : β → List String) :
    ∀ (gs : List β) (acc : List String) (a : String),
      a ∈ gs.foldl (fun acc g => unionCols acc (f g)) acc ↔ a ∈ acc ∨ ∃ g ∈ gs, a ∈ f g
  | [], acc, a => by simp
  | g :: gs, acc, a => by
      rw [List.foldl_cons, mem_foldl_unionCols f gs _ a, mem_unionCols]
      constructor
      · rintro ((h | h) | ⟨g', hg', h⟩)
        · exact Or.inl h
        · exact Or.inr ⟨g, List.mem_cons_self g gs, h⟩
        · exact Or.inr ⟨g', List.mem_cons_of_mem g hg', h⟩
      · rintro (h | ⟨g', hg', h⟩)
        · exact Or.inl (Or.inl h)
        · rcases List.mem_cons.mp hg' with rfl | hg'
          · exact Or.inl (Or.inr h)
          · exact Or.inr ⟨g', hg', h⟩

/-- Membership in the folded concatenation (`cols_to_remove`). -/
theorem mem_foldl_append {β : Type} (f : β → List String) :
    ∀ (gs : List β) (acc : List String) (a : String),
      a ∈ gs.foldl (fun acc g => acc ++ f g) acc ↔ a ∈ acc ∨ ∃ g ∈ gs, a ∈ f g
  | [], acc, a => by simp
  | g :: gs, acc, a => by
      rw [List.foldl_cons, mem_foldl_append f gs _ a, List.mem_append]
      constructor
      · rintro ((h | h) | ⟨g', hg', h⟩)
        · exact Or.inl h
        · exact Or.inr ⟨g, List.mem_cons_self g gs, h⟩
        · exact Or.inr ⟨g', List.mem_cons_of_mem g hg', h⟩
      · rintro (h | ⟨g', hg', h⟩)
        · exact Or.inl (Or.inl h)
        · rcases List.mem_cons.mp hg' with rfl | hg'
          · exact Or.inl (Or.inr h)
          · exact Or.inr ⟨g', hg', h⟩

/-- The kept columns of a group. -/
theorem mem_keptCols (df : Table) (g : List Row) (c : String) :
    c ∈ keptCols df g ↔ c ∈ df.cols ∧ constNonMissing g c = true := by
  unfold keptCols
  simp [List.mem_filter]

/-- The removed columns of a group. -/
theorem mem_removedCols (df : Table) (g : List Row) (c : String) :
    c ∈ removedCols df g ↔ c ∈ df.cols ∧ constNonMissing g c = false := by
  unfold removedCols
  simp [List.mem_filter]

/-- Definitional unfolding of the collapse result columns. -/
theorem collapse_cols_eq (names : List String) (df : Table) :
    (collapse names df).cols =
      (((groupKeysOf names df.rows).map (fun k => groupRowsOf names df.rows k)).foldl
          (fun acc g => unionCols acc (keptCols df g)) []).filter
        (fun c => c ∉ ((groupKeysOf names df.rows).map
            (fun k => groupRowsOf names df.rows k)).foldl
          (fun acc g => acc ++ removedCols df g) []) := rfl

/-- Definitional unfolding of the collapse result rows. -/
theorem collapse_rows_eq (names : List String) (df : Table) :
    (collapse names df).rows =
      ((groupKeysOf names df.rows).map (fun k => groupRowsOf names df.rows k)).map
        (fun g => Row.restrict (Row.restrict (headRow g) (keptCols df g))
          (collapse names df).cols) := rfl

/-- Bounded existence over a mapped list. -/
theorem exists_mem_map {α β : Type} (f : α → β) (l : List α) (p : β → Prop) :
    (∃ b ∈ l.map f, p b) ↔ ∃ a ∈ l, p (f a) := by
  constructor
  · rintro ⟨b, hb, hp⟩
    obtain ⟨a, ha, rfl⟩ := List.mem_map.mp hb
    exact ⟨a, ha, hp⟩
  · rintro ⟨a, ha, hp⟩
    exact ⟨f a, List.mem_map_of_mem f ha, hp⟩

/-- A column survives the collapse exactly when some group exists, the
column is a frame column, and it is constant-and-non-missing in EVERY
group (the shared `cols_to_remove` list makes the keep decision global). -/
theorem mem_collapse_cols (names : List String) (df : Table) (c : String) :
    c ∈ (collapse names df).cols ↔
      (∃ k, k ∈ groupKeysOf names df.rows) ∧ c ∈ df.cols ∧
        ∀ k ∈ groupKeysOf names df.rows,
          constNonMissing (groupRowsOf names df.rows k) c = true := by
  have hrem : ∀ a : String,
      a ∈ ((groupKeysOf names df.rows).map (fun k => groupRowsOf names df.rows k)).foldl
          (fun acc g => acc ++ removedCols df g) []
        ↔ ∃ k ∈ groupKeysOf names df.rows,
            a ∈ removedCols df (groupRowsOf names df.rows k) := by
    intro a
    rw [mem_foldl_append, exists_mem_map]
    simp
  rw [collapse_cols_eq, List.mem_filter, mem_foldl_unionCols, exists_mem_map]
  constructor
  · rintro ⟨h1, h2⟩
    replace h2 := of_decide_eq_true h2
    rw [hrem c] at h2
    rcases h1 with h1 | ⟨k0, hk0, hc⟩
    · cases h1
    obtain ⟨hdf, -⟩ := (mem_keptCols df _ c).mp hc
    refine ⟨⟨k0, hk0⟩, hdf, ?_⟩
    intro k hk
    by_contra hconst
    exact h2 ⟨k, hk, (mem_removedCols df _ c).mpr ⟨hdf, Bool.eq_false_iff.mpr hconst⟩⟩
  · rintro ⟨⟨k0, hk0⟩, hdf, hall⟩
    refine ⟨Or.inr ⟨k0, hk0, (mem_keptCols df _ c).mpr ⟨hdf, hall k0 hk0⟩⟩, ?_⟩
    refine decide_eq_true ?_
    rw [hrem c]
    rintro ⟨k, hk, hc⟩
    obtain ⟨-, hfalse⟩ := (mem_removedCols df _ c).mp hc
    rw [hall k hk] at hfalse
    cases hfalse

/-- The collapse returns one representative row per group key. -/
theorem collapse_rows_mem (names : List String) (df : Table) (r : Row) :
    r ∈ (collapse names df).rows ↔
      ∃ k ∈ groupKeysOf names df.rows,
        r = Row.restrict (Row.restrict (headRow (groupRowsOf names df.rows k))
              (keptCols df (groupRowsOf names df.rows k))) (collapse names df).cols := by
  rw [collapse_rows_eq, List.map_map, List.mem_map]
  constructor
  · rintro ⟨k, hk, heq⟩
    exact ⟨k, hk, heq.symm⟩
  · rintro ⟨k, hk, heq⟩
    exact ⟨k, hk, heq.symm⟩

/-- On a surviving column, the representative row carries the value of
the first row of its group. -/
theorem collapse_row_get (names : List String) (df : Table) (k : List Int)
    (hk : k ∈ groupKeysOf names df.rows) (c : String)
    (hc : c ∈ (collapse names df).cols) :
    Row.get (Row.restrict (Row.restrict (headRow (groupRowsOf names df.rows k))
        (keptCols df (groupRowsOf names df.rows k))) (collapse names df).cols) c
      = Row.get (headRow (groupRowsOf names df.rows k)) c := by
  rw [Row.get_restrict_mem _ _ _ hc]
  obtain ⟨-, hdf, hall⟩ := (mem_collapse_cols names df c).mp hc
  exact Row.get_restrict_mem _ _ _ ((mem_keptCols df _ c).mpr ⟨hdf, hall k hk⟩)

/-- The representative row of group `k` still carries the key `k` when
the grouping columns are frame columns. -/
theorem collapse_row_key (names : List String) (df : Table) (k : List Int)
    (hk : k ∈ groupKeysOf names df.rows) (hnames : ∀ n ∈ names, n ∈ df.cols) :
    rowKey names (Row.restrict (Row.restrict (headRow (groupRowsOf names df.rows k))
        (keptCols df (groupRowsOf names df.rows k))) (collapse names df).cols) = some k := by
  have hne := groupRowsOf_ne_nil names df.rows k hk
  have hhead : rowKey names (headRow (groupRowsOf names df.rows k)) = some k :=
    ((mem_groupRowsOf names df.rows k _).mp (headRow_mem _ hne)).2
  have hcongr : ∀ n ∈ names,
      Row.get (Row.restrict (Row.restrict (headRow (groupRowsOf names df.rows k))
        (keptCols df (groupRowsOf names df.rows k))) (collapse names df).cols) n
        = Row.get (headRow (groupRowsOf names df.rows k)) n := by
    intro n hn
    have hcn : n ∈ (collapse names df).cols := by
      rw [mem_collapse_cols]
      exact ⟨⟨k, hk⟩, hnames n hn,
        fun k' hk' => constNonMissing_of_key names df.rows k' hk' n hn⟩
    exact collapse_row_get names df k hk n hcn
  rw [rowKey_congr names _ _ hcongr, hhead]

/-! ### Claims C2 (amended) and C3 -/

/-- Claim C2 (amended): in the collapse step, a column is kept in the
returned representative rows exactly when it is a frame column that is
constant and non-missing across EVERY group — a column that varies inside
any one group is dropped from all representatives, because the groups
share one `cols_to_remove` list.  Each group contributes exactly one
representative row, carrying its key and, on every kept column, the value
of the group's first row. -/
theorem c2_collapse_keeps_globally_constant_columns (names : List String) (df : Table)
    (hne : groupKeysOf names df.rows ≠ [])
    (hnames : ∀ n ∈ names, n ∈ df.cols) :
    (∀ c : String, c ∈ (collapse names df).cols ↔
        c ∈ df.cols ∧ ∀ k ∈ groupKeysOf names df.rows,
          constNonMissing (groupRowsOf names df.rows k) c = true)
      ∧ (collapse names df).rows.length = (groupKeysOf names df.rows).length
      ∧ ∀ k ∈ groupKeysOf names df.rows, ∃ r ∈ (collapse names df).rows,
          rowKey names r = some k
          ∧ ∀ c ∈ (collapse names df).cols,
              Row.get r c = Row.get (headRow (groupRowsOf names df.rows k)) c := by
  refine ⟨?_, ?_, ?_⟩
  · intro c
    rw [mem_collapse_cols]
    constructor
    · rintro ⟨-, h2, h3⟩
      exact ⟨h2, h3⟩
    · rintro ⟨h2, h3⟩
      refine ⟨?_, h2, h3⟩
      cases hks : groupKeysOf names df.rows with
      | nil => exact absurd hks hne
      | cons k ks => exact ⟨k, List.mem_cons_self k ks⟩
  · rw [collapse_rows_eq]
    simp
  · intro k hk
    refine ⟨Row.restrict (Row.restrict (headRow (groupRowsOf names df.rows k))
        (keptCols df (groupRowsOf names df.rows k))) (collapse names df).cols, ?_, ?_, ?_⟩
    · rw [collapse_rows_mem]
      exact ⟨k, hk, rfl⟩
    · exact collapse_row_key names df k hk hnames
    · intro c hc
      exact collapse_row_get names df k hk c hc

/-- The counterexample frame of claim C2. -/
def c2T : Table :=
  ⟨["n", "c"],
   [[("n", some 1), ("c", some 5)],
    [("n", some 2), ("c", some 7)],
    [("n", some 2), ("c", some 8)]]⟩

/-- Witness for the amended claim C2, applied to the counterexample
frame. -/
theorem c2_witness :
    (∀ c : String, c ∈ (collapse ["n"] c2T).cols ↔
        c ∈ c2T.cols ∧ ∀ k ∈ groupKeysOf ["n"] c2T.rows,
          constNonMissing (groupRowsOf ["n"] c2T.rows k) c = true)
      ∧ (collapse ["n"] c2T).rows.length = (groupKeysOf ["n"] c2T.rows).length
      ∧ ∀ k ∈ groupKeysOf ["n"] c2T.rows, ∃ r ∈ (collapse ["n"] c2T).rows,
          rowKey ["n"] r = some k
          ∧ ∀ c ∈ (collapse ["n"] c2T).cols,
              Row.get r c = Row.get (headRow (groupRowsOf ["n"] c2T.rows k)) c :=
  c2_collapse_keeps_globally_constant_columns ["n"] c2T (by decide) (by decide)

/-- With pairwise-distinct keys, each key's filter class is a singleton. -/
theorem length_filter_key {α β : Type} [DecidableEq β] :
    ∀ (l : List α) (κ : α → β), (l.map κ).Nodup →
      ∀ a ∈ l, (l.filter (fun x => κ x = κ a)).length = 1
  | [], κ, h => by
      intro a ha
      cases ha
  | x :: l, κ, h => by
      intro a ha
      rw [List.map_cons] at h
      obtain ⟨hx, hl⟩ := List.nodup_cons.mp h
      rcases List.mem_cons.mp ha with rfl | ha'
      · rw [List.filter_cons, if_pos (by simp)]
        have hnil : l.filter (fun x' => κ x' = κ a) = [] := by
          rw [List.filter_eq_nil_iff]
          intro y hy
          simp only [decide_eq_true_eq]
          intro hκ
          exact hx (by rw [← hκ]; exact List.mem_map_of_mem κ hy)
        rw [hnil]
        rfl
      · rw [List.filter_cons, if_neg ?_, length_filter_key l κ hl a ha']
        simp only [decide_eq_true_eq]
        intro hκ
        exact hx (by rw [hκ]; exact List.mem_map_of_mem κ ha')

/-- Membership in a Python set union. -/
theorem mem_unionL (xs ys : List String) (a : String) :
    a ∈ unionL xs ys ↔ a ∈ xs ∨ a ∈ ys := by
  unfold unionL
  simp only [List.mem_append, List.mem_filter, decide_eq_true_eq]
  tauto

/-- The closure loop only grows its accumulator and covers the visited
names. -/
theorem getDepsList_mem (rec : List String → Except DbErr (List String))
    (inst : DatabaseInstance) :
    ∀ (ns res out : List String), getDepsList rec inst ns res = .ok out →
      ∀ a, a ∈ res ∨ a ∈ ns → a ∈ out
  | [], res, out => by
      intro h a ha
      cases h
      rcases ha with ha | ha
      · exact ha
      · cases ha
  | n :: ns, res, out => by
      intro h a ha
      unfold getDepsList at h
      cases hl : List.lookup n inst.coords with
      | none => rw [hl] at h; cases h
      | some cc =>
          rw [hl] at h
          replace h : (match rec cc.dependencies with
              | Except.error e => Except.error e
              | Except.ok sub =>
                  getDepsList rec inst ns (unionL (unionL res [n]) sub)) = Except.ok out := h
          cases hr : rec cc.dependencies with
          | error e => rw [hr] at h; cases h
          | ok sub =>
              rw [hr] at h
              refine getDepsList_mem rec inst ns _ out h a ?_
              rcases ha with ha | ha
              · exact Or.inl ((mem_unionL _ _ a).mpr
                  (Or.inl ((mem_unionL _ _ a).mpr (Or.inl ha))))
              · rcases List.mem_cons.mp ha with rfl | ha
                · exact Or.inl ((mem_unionL _ _ a).mpr
                    (Or.inl ((mem_unionL _ _ a).mpr (Or.inr (List.mem_singleton.mpr rfl)))))
                · exact Or.inr ha

/-- The computed closure contains the requested names. -/
theorem getDeps_mem (inst : DatabaseInstance) (fuel : Nat) (names allNames : List String)
    (h : getDeps inst fuel names = .ok allNames) : ∀ n ∈ names, n ∈ allNames := by
  cases fuel with
  | zero => cases h
  | succ f =>
      intro n hn
      unfold getDeps at h
      exact getDepsList_mem (getDeps inst f) inst names [] allNames h n (Or.inr hn)

/-- A successful join loop materializes every closure column. -/
theorem loop_cols (ccs : List CoordComputer) (sel : Selection) (allNames : List String) :
    ∀ (fuel : Nat) (df t : Table), loop ccs sel allNames fuel df = .ok t →
      ∀ a ∈ allNames, a ∈ t.cols
  | 0, df, t => by
      intro h
      cases h
  | Nat.succ f, df, t => by
      intro h a ha
      unfold loop at h
      by_cases hall : allNames.all (fun a => a ∈ df.cols) = true
      · rw [if_pos hall] at h
        cases h
        simpa using List.all_eq_true.mp hall a ha
      · rw [if_neg hall] at h
        cases hs : loopStep sel allNames ccs df with
        | error e => rw [hs] at h; cases h
        | ok df' =>
            rw [hs] at h
            exact loop_cols ccs sel allNames f df' t h a ha

/-- Inversion of a successful resolution. -/
theorem getCoordsImpl_ok (inst : DatabaseInstance) (fuel : Nat) (names : List String)
    (sel : Selection) (t : Table) (h : getCoordsImpl inst fuel names sel = .ok t) :
    ∃ allNames df, getDeps inst fuel names = .ok allNames
      ∧ loop inst.db.coord_computers sel allNames fuel ⟨[], [[]]⟩ = .ok df
      ∧ t = collapse names df ∧ ∀ n ∈ names, n ∈ allNames := by
  unfold getCoordsImpl at h
  cases hd : getDeps inst fuel names with
  | error e => rw [hd] at h; cases h
  | ok allNames =>
      rw [hd] at h
      replace h : (match loop inst.db.coord_computers sel allNames fuel ⟨[], [[]]⟩ with
          | Except.error e => Except.error e
          | Except.ok df =>
              if names.isEmpty = true then Except.error (DbErr.exc "Strange")
              else Except.ok (collapse names df)) = Except.ok t := h
      cases hl : loop inst.db.coord_computers sel allNames fuel ⟨[], [[]]⟩ with
      | error e => rw [hl] at h; cases h
      | ok df =>
          rw [hl] at h
          replace h : (if names.isEmpty = true then Except.error (DbErr.exc "Strange")
              else Except.ok (collapse names df)) = Except.ok t := h
          by_cases hemp : names.isEmpty = true
          · rw [if_pos hemp] at h
            cases h
          · rw [if_neg hemp] at h
            cases h
            exact ⟨allNames, df, rfl, hl, rfl, getDeps_mem inst fuel names allNames hd⟩

/-- Claim C3: for every set of requested coordinate names and every
filter, no two rows returned by `get_coords` share the same tuple of
values on the requested columns — grouping the result by the requested
names yields groups of size exactly one. -/
theorem c3_get_coords_unique (inst : DatabaseInstance) (fuel : Nat) (names : List String)
    (sel : Selection) (t : Table) (h : get_coords inst fuel names sel = .ok t) :
    ∀ r ∈ t.rows, (t.rows.filter (fun r' => rowKey names r' = rowKey names r)).length = 1 := by
  obtain ⟨allNames, df, hdeps, hloop, rfl, hsub⟩ := getCoordsImpl_ok inst fuel names sel t h
  have hnames : ∀ n ∈ names, n ∈ df.cols := fun n hn =>
    loop_cols _ _ _ fuel _ df hloop n (hsub n hn)
  have hkeys : ∀ k ∈ groupKeysOf names df.rows,
      rowKey names (Row.restrict (Row.restrict (headRow (groupRowsOf names df.rows k))
        (keptCols df (groupRowsOf names df.rows k))) (collapse names df).cols) = some k :=
    fun k hk => collapse_row_key names df k hk hnames
  have hmap : (collapse names df).rows.map (rowKey names)
      = (groupKeysOf names df.rows).map (fun k => some k) := by
    rw [collapse_rows_eq, List.map_map, List.map_map]
    exact List.map_congr_left (fun k hk => hkeys k hk)
  have hnodup : ((collapse names df).rows.map (rowKey names)).Nodup := by
    rw [hmap]
    exact (nodup_groupKeysOf names df.rows).map (fun a b hab => Option.some.inj hab)
  exact length_filter_key (collapse names df).rows (rowKey names) hnodup

/-- Witness for claim C3 at the concrete registry of claim C1, evaluated
on the first returned row. -/
theorem c3_witness :
    (([[("a", some 1), ("b", some 10)],
       [("a", some 2), ("b", some 20)],
       [("a", some 3), ("b", some 30)]] : List Row).filter
      (fun r' => rowKey ["a", "b"] r'
        = rowKey ["a", "b"] [("a", some 1), ("b", some 10)])).length = 1 :=
  c3_get_coords_unique exInst 9 ["a", "b"] []
    ⟨["a", "b"],
     [[("a", some 1), ("b", some 10)],
      [("a", some 2), ("b", some 20)],
      [("a", some 3), ("b", some 30)]]⟩ rfl
    [("a", some 1), ("b", some 10)] (by decide)

/-! ### Claim C4 (amended): filter soundness under the code's semantics -/

/-- Filtering does not change the columns. -/
theorem filterT_cols : ∀ (sel : Selection) (t : Table), (filterT t sel).cols = t.cols
  | [], t => rfl
  | (s, v) :: rest, t => by
      unfold filterT
      rw [filterT_cols rest]
      split <;> rfl

/-- Every surviving row satisfies every filter entry whose column the
frame carries. -/
theorem filterT_sound : ∀ (sel : Selection) (t : Table) (r : Row),
    r ∈ (filterT t sel).rows →
      r ∈ t.rows ∧ ∀ p ∈ sel, p.1 ∈ t.cols → cellSat (Row.get r p.1) p.2 = true
  | [], t, r => by
      intro h
      refine ⟨h, ?_⟩
      intro p hp
      cases hp
  | (s, v) :: rest, t, r => by
      intro h
      unfold filterT at h
      obtain ⟨hmem, hrest⟩ := filterT_sound rest _ r h
      by_cases hs : s ∈ t.cols
      · rw [if_pos hs] at hmem hrest
        have hsat : cellSat (Row.get r s) v = true := (List.mem_filter.mp hmem).2
        have hmem' : r ∈ t.rows := (List.mem_filter.mp hmem).1
        refine ⟨hmem', ?_⟩
        intro p hp hcol
        rcases List.mem_cons.mp hp with rfl | hp'
        · exact hsat
        · exact hrest p hp' hcol
      · rw [if_neg hs] at hmem hrest
        refine ⟨hmem, ?_⟩
        intro p hp hcol
        rcases List.mem_cons.mp hp with rfl | hp'
        · exact absurd hcol hs
        · exact hrest p hp' hcol

/-- Reading a self-keyed row built over `cs`. -/
theorem Row.get_map_self (f : String → Cell) (cs : List String) (c : String) (h : c ∈ cs) :
    Row.get (cs.map (fun x => (x, f x))) c = f c := by
  unfold Row.get
  rw [lookup_map_self f cs c h]
  rfl

/-- A column name that cannot be a pandas merge-suffix artifact:
no string yields it by appending `_x` or `_y`. -/
def notSuffixed (c : String) : Prop :=
  ∀ b : String, c ≠ b ++ "_x" ∧ c ≠ b ++ "_y"

/-- Names shorter than the suffixes are never suffix artifacts. -/
theorem notSuffixed_of_short (c : String) (h : c.length < 2) : notSuffixed c := by
  have hx : ("_x" : String).length = 2 := rfl
  have hy : ("_y" : String).length = 2 := rfl
  intro b
  constructor <;> intro he
  · rw [he, String.length_append, hx] at h
    omega
  · rw [he, String.length_append, hy] at h
    omega

/-- For a name that is not a suffix artifact, renaming produces it exactly
from the identical non-overlapping source column. -/
theorem renameOv_eq_iff (ov : List String) (sfx : String) (c s : String)
    (hs : ∀ b : String, s ≠ b ++ sfx) :
    renameOv ov sfx c = s ↔ c = s ∧ s ∉ ov := by
  unfold renameOv
  by_cases hc : c ∈ ov
  · rw [if_pos hc]
    constructor
    · intro he
      exact absurd he.symm (hs c)
    · rintro ⟨rfl, hsov⟩
      exact absurd hc hsov
  · rw [if_neg hc]
    constructor
    · intro he
      exact ⟨he, he ▸ hc⟩
    · exact fun h => h.1

/-- Membership in a renamed column list, for non-artifact names. -/
theorem mem_map_renameOv (ov : List String) (sfx : String) (l : List String) (s : String)
    (hs : ∀ b : String, s ≠ b ++ sfx) :
    s ∈ l.map (renameOv ov sfx) ↔ s ∈ l ∧ s ∉ ov := by
  rw [List.mem_map]
  constructor
  · rintro ⟨c, hcl, hc⟩
    obtain ⟨rfl, hov⟩ := (renameOv_eq_iff ov sfx c s hs).mp hc
    exact ⟨hcl, hov⟩
  · rintro ⟨hsl, hov⟩
    exact ⟨s, hsl, (renameOv_eq_iff ov sfx s s hs).mpr ⟨rfl, hov⟩⟩

/-- Lookup misses a keyed map whose keys all differ from `s`. -/
theorem lookup_map_key_none (g : String → String) (f : String → Cell) :
    ∀ (l : List String) (s : String), (∀ c ∈ l, g c ≠ s) →
      List.lookup s (l.map (fun c => (g c, f c))) = none
  | [], _, _ => rfl
  | c :: l, s, h => by
      have hb : (s == g c) = false :=
        beq_eq_false_iff_ne.mpr (fun he => h c (List.mem_cons_self c l) he.symm)
      simp [List.lookup_cons, hb,
        lookup_map_key_none g f l s (fun c' hc' => h c' (List.mem_cons_of_mem c hc'))]

/-- Lookup in a keyed map whose key function fixes exactly `s`. -/
theorem lookup_map_key_some (g : String → String) (f : String → Cell) :
    ∀ (l : List String) (s : String), (∀ c ∈ l, (g c = s ↔ c = s)) → s ∈ l →
      List.lookup s (l.map (fun c => (g c, f c))) = some (f s)
  | [], s, _, hs => by cases hs
  | c :: l, s, h, hs => by
      by_cases hcs : c = s
      · subst hcs
        have hg : g c = c := (h c (List.mem_cons_self c l)).mpr rfl
        simp [List.lookup_cons, hg]
      · have hg : g c ≠ s := fun he => hcs ((h c (List.mem_cons_self c l)).mp he)
        have hb : (s == g c) = false := beq_eq_false_iff_ne.mpr (fun he => hg he.symm)
        have hs' : s ∈ l := by
          rcases List.mem_cons.mp hs with rfl | hs'
          · exact absurd rfl hcs
          · exact hs'
        simp [List.lookup_cons, hb,
          lookup_map_key_some g f l s (fun c' hc' => h c' (List.mem_cons_of_mem c hc')) hs']

/-- A merged cell on a non-artifact column owned by the left side. -/
theorem mergeRows_get_left (leftCols ov rs : List String) (r1 r2 : Row) (s : String)
    (hns : notSuffixed s) (hmem : s ∈ leftCols) (hov : s ∉ ov) :
    Row.get (mergeRows leftCols ov rs r1 r2) s = Row.get r1 s := by
  have hiff : ∀ c ∈ leftCols, (renameOv ov "_x" c = s ↔ c = s) := by
    intro c hc
    rw [renameOv_eq_iff ov "_x" c s (fun b => (hns b).1)]
    exact ⟨fun h => h.1, fun h => ⟨h, hov⟩⟩
  unfold mergeRows Row.get
  rw [List.lookup_append,
    lookup_map_key_some (renameOv ov "_x") _ leftCols s hiff hmem]
  rfl

/-- A merged cell on a non-artifact column supplied by the right side. -/
theorem mergeRows_get_right (leftCols ov rs : List String) (r1 r2 : Row) (s : String)
    (hns : notSuffixed s) (hleft : ¬ (s ∈ leftCols ∧ s ∉ ov)) (hmem : s ∈ rs)
    (hov : s ∉ ov) :
    Row.get (mergeRows leftCols ov rs r1 r2) s = Row.get r2 s := by
  have hnone : ∀ c ∈ leftCols, renameOv ov "_x" c ≠ s := by
    intro c hc he
    obtain ⟨rfl, hov'⟩ := (renameOv_eq_iff ov "_x" c s (fun b => (hns b).1)).mp he
    exact hleft ⟨hc, hov'⟩
  have hiff : ∀ c ∈ rs, (renameOv ov "_y" c = s ↔ c = s) := by
    intro c hc
    rw [renameOv_eq_iff ov "_y" c s (fun b => (hns b).2)]
    exact ⟨fun h => h.1, fun h => ⟨h, hov⟩⟩
  unfold mergeRows Row.get
  rw [List.lookup_append,
    lookup_map_key_none (renameOv ov "_x") _ leftCols s hnone,
    lookup_map_key_some (renameOv ov "_y") _ rs s hiff hmem]
  rfl

/-- The columns of a merge: left columns then right source columns, the
overlap renamed on each side. -/
theorem merge_cols (df tmp : Table) (deps : List String) :
    (merge df tmp deps).cols =
      df.cols.map (renameOv (mergeOverlap df tmp deps) "_x")
        ++ (mergeRightSrc tmp deps).map (renameOv (mergeOverlap df tmp deps) "_y") := by
  simp only [merge]
  split <;> rfl

/-- Every merged row combines a left row and a right row. -/
theorem merge_rows_mem (df tmp : Table) (deps : List String) (r : Row)
    (h : r ∈ (merge df tmp deps).rows) :
    ∃ r1 ∈ df.rows, ∃ r2 ∈ tmp.rows,
      r = mergeRows df.cols (mergeOverlap df tmp deps) (mergeRightSrc tmp deps) r1 r2 := by
  simp only [merge] at h
  by_cases hd : deps.isEmpty = true
  · rw [if_pos hd] at h
    obtain ⟨r1, hr1, hmap⟩ := List.mem_flatMap.mp h
    obtain ⟨r2, hr2, rfl⟩ := List.mem_map.mp hmap
    exact ⟨r1, hr1, r2, hr2, rfl⟩
  · rw [if_neg hd] at h
    obtain ⟨r1, hr1, hmap⟩ := List.mem_flatMap.mp h
    obtain ⟨r2, hr2, rfl⟩ := List.mem_map.mp hmap
    exact ⟨r1, hr1, r2, (List.mem_filter.mp hr2).1, rfl⟩

/-- Right source columns come from the right frame. -/
theorem mergeRightSrc_subset (tmp : Table) (deps : List String) (c : String)
    (h : c ∈ mergeRightSrc tmp deps) : c ∈ tmp.cols := by
  unfold mergeRightSrc at h
  by_cases hd : deps.isEmpty = true
  · rw [if_pos hd] at h
    exact h
  · rw [if_neg hd] at h
    exact (List.mem_filter.mp h).1

/-- Invariant of the join loop: every row of the accumulated frame
satisfies every applicable filter entry whose key is not a merge-suffix
artifact.  Suffixed columns are renamed copies created AFTER `_filter`
ran, so the source never relates them to a filter entry of the same
name — they are exactly the columns the invariant must exempt. -/
def satInv (sel : Selection) (df : Table) : Prop :=
  ∀ r ∈ df.rows, ∀ p ∈ sel, p.1 ∈ df.cols → notSuffixed p.1 →
    cellSat (Row.get r p.1) p.2 = true

/-- Merging a freshly filtered frame preserves the invariant: a retained
left column keeps its old (sound) value, and a non-artifact column from
the right was present in the computed frame when the filter ran. -/
theorem merge_satInv (sel : Selection) (df computed : Table) (deps : List String)
    (hinv : satInv sel df) :
    satInv sel (merge df (filterT computed sel) deps) := by
  intro r hr p hp hcol hns
  obtain ⟨r1, hr1, r2, hr2, rfl⟩ := merge_rows_mem df (filterT computed sel) deps r hr
  rw [merge_cols] at hcol
  by_cases hL : p.1 ∈ df.cols ∧ p.1 ∉ mergeOverlap df (filterT computed sel) deps
  · rw [mergeRows_get_left df.cols _ _ r1 r2 p.1 hns hL.1 hL.2]
    exact hinv r1 hr1 p hp hL.1 hns
  · have hR : p.1 ∈ (mergeRightSrc (filterT computed sel) deps).map
        (renameOv (mergeOverlap df (filterT computed sel) deps) "_y") := by
      rcases List.mem_append.mp hcol with hc | hc
      · exact absurd ((mem_map_renameOv _ _ _ _ (fun b => (hns b).1)).mp hc) hL
      · exact hc
    obtain ⟨hrs, hov⟩ := (mem_map_renameOv _ _ _ _ (fun b => (hns b).2)).mp hR
    rw [mergeRows_get_right df.cols _ _ r1 r2 p.1 hns hL hrs hov]
    have hcomp : p.1 ∈ computed.cols := by
      have hsub := mergeRightSrc_subset (filterT computed sel) deps p.1 hrs
      rw [filterT_cols] at hsub
      exact hsub
    exact (filterT_sound sel computed r2 hr2).2 p hp hcomp

/-- One scan over the computers preserves the filter invariant: new
columns enter only through a frame that was just filtered, or as suffixed
copies that the invariant exempts. -/
theorem loopStep_satInv (sel : Selection) (allNames : List String) :
    ∀ (ccs : List CoordComputer) (df df' : Table),
      satInv sel df → loopStep sel allNames ccs df = .ok df' → satInv sel df'
  | [], df, df' => by
      intro hinv h
      cases h
      exact hinv
  | cc :: ccs, df, df' => by
      intro hinv h
      simp only [loopStep] at h
      by_cases happ : applicable allNames df.cols cc = true
      · rw [if_pos happ] at h
        by_cases hdep : cc.dependencies.all
            (fun d => d ∈ (filterT (cc.compute (projectDedup df cc.dependencies)) sel).cols) = true
        · rw [if_pos hdep] at h
          exact loopStep_satInv sel allNames ccs _ df'
            (merge_satInv sel df (cc.compute (projectDedup df cc.dependencies))
              cc.dependencies hinv) h
        · rw [if_neg hdep] at h
          cases h
      · rw [if_neg happ] at h
        exact loopStep_satInv sel allNames ccs df df' hinv h

/-- The whole join loop preserves the filter invariant. -/
theorem loop_satInv (ccs : List CoordComputer) (sel : Selection) (allNames : List String) :
    ∀ (fuel : Nat) (df t : Table), satInv sel df →
      loop ccs sel allNames fuel df = .ok t → satInv sel t
  | 0, df, t => by
      intro _ h
      cases h
  | Nat.succ f, df, t => by
      intro hinv h
      unfold loop at h
      by_cases hall : allNames.all (fun a => a ∈ df.cols) = true
      · rw [if_pos hall] at h
        cases h
        exact hinv
      · rw [if_neg hall] at h
        cases hs : loopStep sel allNames ccs df with
        | error e => rw [hs] at h; cases h
        | ok df' =>
            rw [hs] at h
            exact loop_satInv ccs sel allNames f df' t
              (loopStep_satInv sel allNames ccs df df' hinv hs) h

/-- The collapse step preserves the filter invariant: every returned cell
on a kept column is the corresponding cell of a row of the joined frame. -/
theorem collapse_satInv (names : List String) (df : Table) (sel : Selection)
    (hinv : satInv sel df) :
    ∀ r ∈ (collapse names df).rows, ∀ p ∈ sel,
      p.1 ∈ (collapse names df).cols → notSuffixed p.1 →
        cellSat (Row.get r p.1) p.2 = true := by
  intro r hr p hp hcol hns
  obtain ⟨k, hk, rfl⟩ := (collapse_rows_mem names df r).mp hr
  rw [collapse_row_get names df k hk p.1 hcol]
  have hne := groupRowsOf_ne_nil names df.rows k hk
  have hhead : headRow (groupRowsOf names df.rows k) ∈ df.rows :=
    ((mem_groupRowsOf names df.rows k _).mp (headRow_mem _ hne)).1
  obtain ⟨-, hdf, -⟩ := (mem_collapse_cols names df p.1).mp hcol
  exact hinv _ hhead p hp hdf hns

/-- Claim C4 (amended): every column present in a resolution result,
constrained by the filter, and whose name is not a pandas merge-suffix
artifact (`c_x`/`c_y`) satisfies the constraint under the SOURCE's
interpretation (`cellSat`): exact values test equality, tuples test
membership, a unary predicate is applied, and a slice bound is enforced
only when it is Python-truthy — a `None` or `0` bound constrains nothing,
and a step value is silently ignored.  The suffix exemption is forced by
the code: when a merge renames an overlapping non-key column `c` to
`c_x`/`c_y`, the renamed copies are created after `_filter` ran, so a
filter entry keyed like a suffixed column can be violated in a returned
row. -/
theorem c4_filter_sound_truthy_bounds (inst : DatabaseInstance) (fuel : Nat)
    (names : List String) (sel : Selection) (t : Table)
    (h : get_coords inst fuel names sel = .ok t) :
    ∀ r ∈ t.rows, ∀ p ∈ sel, p.1 ∈ t.cols → notSuffixed p.1 →
      cellSat (Row.get r p.1) p.2 = true := by
  obtain ⟨allNames, df, hdeps, hloop, rfl, -⟩ := getCoordsImpl_ok inst fuel names sel t h
  have hinv0 : satInv sel (⟨[], [[]]⟩ : Table) := by
    intro r hr p hp hcol
    cases hcol
  exact collapse_satInv names df sel (loop_satInv _ sel allNames fuel _ df hinv0 hloop)

/-- Witness for the amended claim C4: under the filter `a: slice(0, 2)`
the returned row `a = -1` satisfies the code's reading of the constraint,
in which the zero lower bound is not enforced; the one-letter name `a`
cannot be a suffix artifact. -/
theorem c4_witness :
    cellSat (Row.get [("a", some (-1))] "a")
      (FilterVal.range (some 0) (some 2) none) = true :=
  c4_filter_sound_truthy_bounds negInst 9 ["a"]
    [("a", FilterVal.range (some 0) (some 2) none)]
    ⟨["a"], [[("a", some (-1))], [("a", some 1)]]⟩ rfl
    [("a", some (-1))] (by decide)
    ("a", FilterVal.range (some 0) (some 2) none) (List.mem_cons_self _ _)
    (by decide) (notSuffixed_of_short "a" (by decide))

/-! ### Claim C10: a filter entry on an absent column is ignored -/

/-- A filter entry whose column the frame misses drops out of the fold. -/
theorem filterT_skip_absent (k : String) (fv : FilterVal) :
    ∀ (sel1 sel2 : Selection) (t : Table), k ∉ t.cols →
      filterT t (sel1 ++ (k, fv) :: sel2) = filterT t (sel1 ++ sel2)
  | [], sel2, t => by
      intro hk
      show filterT (if k ∈ t.cols then filterRows t k fv else t) sel2 = filterT t sel2
      rw [if_neg hk]
  | (s, v) :: sel1, sel2, t => by
      intro hk
      show filterT (if s ∈ t.cols then filterRows t s v else t) (sel1 ++ (k, fv) :: sel2)
        = filterT (if s ∈ t.cols then filterRows t s v else t) (sel1 ++ sel2)
      refine filterT_skip_absent k fv sel1 sel2 _ ?_
      split
      · exact hk
      · exact hk

/-- If no computer can ever produce column `k`, one scan of the join
loop behaves identically with or without a filter entry on `k`: the
entry only ever acts on freshly computed frames, none of which carries
`k`. -/
theorem loopStep_skip_absent (k : String) (fv : FilterVal) (sel1 sel2 : Selection)
    (allNames : List String) :
    ∀ (ccs : List CoordComputer) (df : Table),
      (∀ cc ∈ ccs, ∀ u : Table, k ∉ (cc.compute u).cols) →
      loopStep (sel1 ++ (k, fv) :: sel2) allNames ccs df
        = loopStep (sel1 ++ sel2) allNames ccs df
  | [], df => by
      intro hcc
      rfl
  | cc :: ccs, df => by
      intro hcc
      have hcc0 : ∀ u : Table, k ∉ (cc.compute u).cols :=
        hcc cc (List.mem_cons_self cc ccs)
      have hccs : ∀ cc' ∈ ccs, ∀ u : Table, k ∉ (cc'.compute u).cols :=
        fun cc' h u => hcc cc' (List.mem_cons_of_mem cc h) u
      by_cases happ : applicable allNames df.cols cc = true
      · have htmp : filterT (cc.compute (projectDedup df cc.dependencies)) (sel1 ++ (k, fv) :: sel2)
            = filterT (cc.compute (projectDedup df cc.dependencies)) (sel1 ++ sel2) :=
          filterT_skip_absent k fv sel1 sel2 _ (hcc0 _)
        by_cases hdep : cc.dependencies.all
            (fun d => d ∈ (filterT (cc.compute (projectDedup df cc.dependencies)) (sel1 ++ sel2)).cols) = true
        · simp only [loopStep]
          rw [if_pos happ, if_pos happ, htmp, if_pos hdep, if_pos hdep]
          exact loopStep_skip_absent k fv sel1 sel2 allNames ccs
            (merge df (filterT (cc.compute (projectDedup df cc.dependencies)) (sel1 ++ sel2))
              cc.dependencies) hccs
        · simp only [loopStep]
          rw [if_pos happ, if_pos happ, htmp, if_neg hdep, if_neg hdep]
      · simp only [loopStep]
        rw [if_neg happ, if_neg happ]
        exact loopStep_skip_absent k fv sel1 sel2 allNames ccs df hccs

/-- The whole join loop is unaffected by a filter entry on a column no
computer can produce. -/
theorem loop_skip_absent (k : String) (fv : FilterVal) (sel1 sel2 : Selection)
    (allNames : List String) (ccs : List CoordComputer)
    (hcc : ∀ cc ∈ ccs, ∀ u : Table, k ∉ (cc.compute u).cols) :
    ∀ (fuel : Nat) (df : Table),
      loop ccs (sel1 ++ (k, fv) :: sel2) allNames fuel df
        = loop ccs (sel1 ++ sel2) allNames fuel df
  | 0, df => rfl
  | Nat.succ f, df => by
      unfold loop
      by_cases hall : allNames.all (fun a => a ∈ df.cols) = true
      · rw [if_pos hall, if_pos hall]
      · rw [if_neg hall, if_neg hall,
          loopStep_skip_absent k fv sel1 sel2 allNames ccs df hcc]
        cases hs : loopStep (sel1 ++ sel2) allNames ccs df with
        | error e => rfl
        | ok df' => exact loop_skip_absent k fv sel1 sel2 allNames ccs hcc f df'

/-- Claim C10: a filter entry whose column name never appears in any
table produced during resolution — no registered computer can output it —
is silently ignored: `get_coords` raises no error for it and returns
exactly the result of the same call with that entry removed. -/
theorem c10_absent_filter_entry_ignored (inst : DatabaseInstance) (fuel : Nat)
    (names : List String) (sel1 sel2 : Selection) (k : String) (fv : FilterVal)
    (hcc : ∀ cc ∈ inst.db.coord_computers, ∀ u : Table, k ∉ (cc.compute u).cols) :
    get_coords inst fuel names (sel1 ++ (k, fv) :: sel2)
      = get_coords inst fuel names (sel1 ++ sel2) := by
  unfold get_coords getCoordsImpl
  cases hd : getDeps inst fuel names with
  | error e => rfl
  | ok allNames =>
      show (match loop inst.db.coord_computers (sel1 ++ (k, fv) :: sel2) allNames fuel
              ⟨[], [[]]⟩ with
          | Except.error e => Except.error e
          | Except.ok df =>
              if names.isEmpty = true then Except.error (DbErr.exc "Strange")
              else Except.ok (collapse names df))
        = (match loop inst.db.coord_computers (sel1 ++ sel2) allNames fuel ⟨[], [[]]⟩ with
          | Except.error e => Except.error e
          | Except.ok df =>
              if names.isEmpty = true then Except.error (DbErr.exc "Strange")
              else Except.ok (collapse names df))
      rw [loop_skip_absent k fv sel1 sel2 allNames inst.db.coord_computers hcc fuel
        ⟨[], [[]]⟩]

/-- Witness for claim C10: a filter entry on the never-produced column
`zzz` leaves the resolution of the example registry unchanged. -/
theorem c10_witness :
    get_coords exInst 9 ["a", "b"] ([] ++ ("zzz", FilterVal.exact 5) :: [])
      = get_coords exInst 9 ["a", "b"] ([] ++ []) :=
  c10_absent_filter_entry_ignored exInst 9 ["a", "b"] [] [] "zzz" (FilterVal.exact 5)
    (by
      intro cc hcc u
      have hcc' : cc = cca ∨ cc = ccb := by simpa [exInst, exDb] using hcc
      rcases hcc' with rfl | rfl
      · show "zzz" ∉ ["a"]
        decide
      · show "zzz" ∉ ["b", "a"]
        decide)

end Pipeline
